import Mathlib

/-!
# Verification of `scripts/generate_source_map.py`

A shallow embedding of the source-map generator. Python strings are modelled
as `List Char` (`Str`), so that every text operation of the script (strip,
startswith, split on newlines, decimal formatting) is an executable Lean
function. A directory tree on disk is modelled by `FSEntry`: a file carries
`none` as content when it cannot be opened, a directory carries `none` as its
listing when `iterdir` raises `PermissionError`. The script's recursive
functions are translated one-to-one; their fuel-indexed twins (suffix `F`)
are proved equal to them and exist only so that concrete runs reduce in the
kernel.
-/

namespace SourceMap

/-- Python `str`, modelled as its list of characters. -/
abbrev Str := List Char

/-- Characters of a Lean string literal, used to write `Str` constants. -/
def str (s : String) : Str := s.data

/-- Python's `str.strip()` whitespace test (ASCII fragment). -/
def isWs (c : Char) : Bool := c.isWhitespace

/-- Python `s.strip()`: drop leading and trailing whitespace. -/
def pyStrip (s : Str) : Str :=
  ((s.dropWhile isWs).reverse.dropWhile isWs).reverse

/-- Python `s.startswith(p)`: `p` is a prefix of `s` (argument order: pattern, string). -/
def isPre : Str → Str → Bool
  | [], _ => true
  | _ :: _, [] => false
  | a :: as, b :: bs => a = b && isPre as bs

/-- Python string comparison `a <= b`: lexicographic by code point. -/
def strLe : Str → Str → Bool
  | [], _ => true
  | _ :: _, [] => false
  | a :: as, b :: bs => if a < b then true else if a = b then strLe as bs else false

/-- Split a text on newline characters, Python `text.split("\n")`. -/
def splitNl : Str → List Str
  | [] => [[]]
  | c :: cs =>
    match splitNl cs with
    | r :: rs => if c = '\n' then [] :: r :: rs else (c :: r) :: rs
    | [] => []

/-- Python `"\n".join(lines)`. -/
def joinNl : List Str → Str
  | [] => []
  | [l] => l
  | l :: ls => l ++ '\n' :: joinNl ls

/-- Decimal rendering of a natural number, Python `f"{n}"`. -/
def natStr (n : Nat) : Str := Nat.toDigits 10 n

/-- Helper for `fmtComma`: input is the reversed digit list, `i` the position from the right. -/
def commaRev : Str → Nat → Str
  | [], _ => []
  | c :: cs, i =>
    if i ≠ 0 ∧ i % 3 = 0 then ',' :: c :: commaRev cs (i + 1)
    else c :: commaRev cs (i + 1)

/-- Python `f"{n:,}"`: decimal with thousands separators. -/
def fmtComma (n : Nat) : Str := (commaRev (natStr n).reverse 0).reverse

/-- Posix path join relative to the scan root: `describe` keys are built with it.
The scan root itself is the empty relative path. -/
def relJoin (pre n : Str) : Str := if pre = [] then n else pre ++ '/' :: n

end SourceMap

namespace SourceMap

/-- One entry of a directory on disk. A file whose `content` is `none` cannot
be opened (read error); a directory whose `listing` is `none` raises
`PermissionError` on `iterdir`. File content is the list of its text lines. -/
inductive FSEntry where
  | file (name : Str) (content : Option (List Str))
  | dir  (name : Str) (listing : Option (List FSEntry))

/-- `entry.name` of either kind of entry. -/
def FSEntry.name : FSEntry → Str
  | .file n _ => n
  | .dir n _ => n

/-- The hand-curated `DESCRIPTIONS` table of the script, keyed by path relative to `src/`. -/
def DESCRIPTIONS : List (Str × Str) := [
  (str "main.rs", str "Application entry point; initialises CLI and main runtime."),
  (str "cli", str "Command-line argument parsing and flag structures."),
  (str "cli/mod.rs", str "CLI module exports."),
  (str "cli/args.rs", str "CLI argument parser and configuration."),
  (str "cli/flags.rs", str "Enums for CLI flags (e.g., `--colours=WHEN`, `--date=TYPE`, etc.)."),
  (str "fs", str "Filesystem management (entries, directories, metadata)."),
  (str "fs/mod.rs", str "Filesystem module exports."),
  (str "fs/cache.rs", str "In-memory caching of entry data for performance."),
  (str "fs/dir.rs", str "Directory traversal and filesystem operations."),
  (str "fs/entry.rs", str "Entry metadata and attributes representation."),
  (str "fs/feature", str "Additional filesystem features (magic, git)."),
  (str "fs/feature/mod.rs", str "Features module exports."),
  (str "fs/feature/checksum.rs", str "Entry checksum calculation."),
  (str "fs/feature/magic.rs", str "File magic type detection via libmagic."),
  (str "fs/metadata.rs", str "File metadata extraction and handling."),
  (str "fs/hyperlink.rs", str "Terminal hyperlinks (OSC 8) for filesystem entries."),
  (str "fs/symlink.rs", str "Symlink utilities (reading targets, formats display)."),
  (str "fs/acl.rs", str "ACL (Access Control List) detection and handling."),
  (str "fs/xattr.rs", str "Extended attributes (xattr) detection and handling."),
  (str "fs/mountpoint.rs", str "Mountpoint detection for filesystem entries."),
  (str "fs/glob.rs", str "Glob pattern matching for search and hide filtering."),
  (str "fs/search.rs", str "File search functionality using glob patterns."),
  (str "fs/tree.rs", str "Tree structure and builder for hierarchical directory representation."),
  (str "output", str "Output presentation system (layouts, themes, printers and formats)."),
  (str "output/mod.rs", str "Output module exports."),
  (str "output/banner.rs", str "ASCII art banner generation with gradient colours."),
  (str "output/populate.rs", str "Populates table rows with formatted entry data."),
  (str "output/quotes.rs", str "Shell-safe text quoting utilities (single, double, auto)."),
  (str "output/terminal.rs", str "Terminal capabilities detection and configuration."),
  (str "output/formats", str "Formats for output (dates, sizes, permissions, etc.)."),
  (str "output/formats/mod.rs", str "Format module exports."),
  (str "output/formats/format.rs", str "Format trait used as an implementation base for formats."),
  (str "output/formats/number.rs", str "Number formats (human-readable, metric, etc.)."),
  (str "output/formats/date.rs", str "Date and time formats."),
  (str "output/formats/ownership.rs", str "User/group name resolution and formats."),
  (str "output/formats/permissions.rs", str "File permissions formats (symbolic/octal)."),
  (str "output/formats/size.rs", str "File size formats (bytes, KB, MB, etc.)."),
  (str "output/layout", str "Column and row data structures, width calculation, and alignment."),
  (str "output/layout/mod.rs", str "Layout module exports."),
  (str "output/layout/column.rs", str "Column definitions, selectors, and width calculations."),
  (str "output/layout/row.rs", str "Row structure and value resolution for columns."),
  (str "output/layout/alignment.rs", str "Text alignment and padding utilities."),
  (str "output/layout/width.rs", str "Cached width calculator for optimised text measurement."),
  (str "output/layout/unicode_width.rs", str "Unicode character width calculation via libc wcwidth()."),
  (str "output/layout/term_grid", str "Terminal grid layout calculator for multi-column display."),
  (str "output/layout/term_grid/mod.rs", str "Term grid module exports."),
  (str "output/layout/term_grid/cell.rs", str "Grid cell structure with content, width, and alignment."),
  (str "output/layout/term_grid/layout.rs", str "Grid layout calculator and display formatter."),
  (str "output/layout/term_grid/options.rs", str "Grid configuration options (direction, column spacing)."),
  (str "output/display", str "Display modes and factory for rendering directory contents."),
  (str "output/display/mod.rs", str "Display module exports."),
  (str "output/display/mode.rs", str "DisplayMode trait for different output formats."),
  (str "output/display/factory.rs", str "Factory for creating appropriate display modes based on args."),
  (str "output/display/grid.rs", str "Grid display mode for compact multi-column layout."),
  (str "output/display/list.rs", str "List display mode with column-based table output."),
  (str "output/display/tree.rs", str "Tree display mode for hierarchical directory view."),
  (str "output/display/traversal.rs", str "RecursiveTraversal trait for recursive directory rendering."),
  (str "output/theme", str "UI theme, icons, colours, and styling system."),
  (str "output/theme/mod.rs", str "Theme module exports."),
  (str "output/theme/colours.rs", str "Colour palette and RGB colour definitions."),
  (str "output/theme/icons.rs", str "Icons for file types, folders, and extensions."),
  (str "output/theme/config", str "TOML-based theme configuration system."),
  (str "output/theme/config/mod.rs", str "Config module exports and theme loader."),
  (str "output/theme/config/colour.rs", str "Colour deserialisation (RGB and named colours)."),
  (str "output/theme/config/theme.rs", str "Theme struct with semantic colour categories and Gruvbox default."),
  (str "output/styles", str "Styling system for cells, columns, and entries."),
  (str "output/styles/mod.rs", str "Styles module exports."),
  (str "output/styles/text.rs", str "Individual text styles logic."),
  (str "output/styles/column.rs", str "Column-specific styling rules."),
  (str "output/styles/entry.rs", str "Entry-specific styling and colorisation.")
]

/-- The sentinel description used when no table entry exists. -/
def noDescription : Str := str "No description available."

/-- `describe(path)`: look up the path relative to `src/` in `DESCRIPTIONS`,
falling back to the sentinel. -/
def describe (rel : Str) : Str :=
  match DESCRIPTIONS.lookup rel with
  | some d => d
  | none => noDescription

/-- The loop body of `line_count`: count lines whose stripped form is non-empty
and does not start with `///` or `//`. -/
def lineCountLoop (count : Nat) : List Str → Nat
  | [] => count
  | line :: rest =>
    let stripped := pyStrip line
    if stripped ≠ [] ∧ ¬(isPre (str "///") stripped = true ∨ isPre (str "//") stripped = true) then
      lineCountLoop (count + 1) rest
    else
      lineCountLoop count rest

/-- `line_count(path)`: 0 when the file cannot be opened, otherwise the number
of non-blank, non-`//`-comment lines. -/
def line_count : Option (List Str) → Nat
  | none => 0
  | some lines => lineCountLoop 0 lines

/-- Index of the last `'.'` in a name, counting from position `i`. -/
def lastDotIdx : Str → Nat → Option Nat
  | [], _ => none
  | c :: cs, i =>
    match lastDotIdx cs (i + 1) with
    | some j => some j
    | none => if c = '.' then some i else none

/-- `pathlib.Path.suffix` of a file name: the extension from the last dot,
empty when the dot is the first character, absent, or the last character. -/
def pathSuffix (name : Str) : Str :=
  match lastDotIdx name 0 with
  | some i => if 0 < i ∧ i + 1 < name.length then name.drop i else []
  | none => []

/-- `is_rust_file(path)`: the suffix is `.rs`. -/
def is_rust_file (name : Str) : Bool := pathSuffix name == str ".rs"

/-- The skip test of `generate_tree`: hidden names and the fixed ignore list. -/
def excludedName (n : Str) : Bool :=
  isPre (str ".") n || n == str "target" || n == str "node_modules" || n == str "__pycache__"

/-- A file survives both the skip test and the inclusion rule of `generate_tree`. -/
def keepEntry : FSEntry → Bool
  | .file n _ => !excludedName n && (is_rust_file n || n == str "README.md")
  | .dir n _ => !excludedName n

end SourceMap

namespace SourceMap

/-- A permutation of a list preserves its `sizeOf`. -/
theorem sizeOf_eq_of_perm {α : Type} [SizeOf α] {l₁ l₂ : List α} (h : l₁.Perm l₂) :
    sizeOf l₁ = sizeOf l₂ := by
  induction h with
  | nil => rfl
  | cons a _ ih => simp [ih]
  | swap a b l => simp; omega
  | trans _ _ ih₁ ih₂ => omega

/-- The order `sorted(base.iterdir())` sorts by: entry name, lexicographically. -/
def entryLe (a b : FSEntry) : Prop := strLe a.name b.name = true

instance : DecidableRel entryLe := fun a b =>
  inferInstanceAs (Decidable (strLe a.name b.name = true))

/-- `sorted(base.iterdir())`: a stable sort of the directory listing by name. -/
def sortEntries (l : List FSEntry) : List FSEntry := List.insertionSort entryLe l

theorem sizeOf_sortEntries (l : List FSEntry) : sizeOf (sortEntries l) = sizeOf l :=
  sizeOf_eq_of_perm (List.perm_insertionSort entryLe l)

/-- The in-memory tree of `generate_tree`: the `files` list holds
`(name, description, line count)` triples, `dirs` maps child directory names
to subtrees (insertion order; Python uses a dict with unique keys). -/
inductive Tree where
  | mk (files : List (Str × Str × Nat)) (dirs : List (Str × Tree))

/-- `tree["files"]`. -/
def Tree.files : Tree → List (Str × Str × Nat)
  | .mk fs _ => fs

/-- `tree["dirs"]`. -/
def Tree.dirs : Tree → List (Str × Tree)
  | .mk _ ds => ds

@[simp] theorem Tree.files_mk (fs : List (Str × Str × Nat)) (ds : List (Str × Tree)) :
    (Tree.mk fs ds).files = fs := rfl

@[simp] theorem Tree.dirs_mk (fs : List (Str × Str × Nat)) (ds : List (Str × Tree)) :
    (Tree.mk fs ds).dirs = ds := rfl

/-- The order `sorted(tree["dirs"].items())` sorts by: directory name. -/
def dirLe (a b : Str × Tree) : Prop := strLe a.1 b.1 = true

instance : DecidableRel dirLe := fun a b =>
  inferInstanceAs (Decidable (strLe a.1 b.1 = true))

/-- `sorted(tree["dirs"].items())` (equivalently `sorted(...keys())` with lookup). -/
def sortDirs (ds : List (Str × Tree)) : List (Str × Tree) := List.insertionSort dirLe ds

theorem sizeOf_sortDirs (ds : List (Str × Tree)) : sizeOf (sortDirs ds) = sizeOf ds :=
  sizeOf_eq_of_perm (List.perm_insertionSort dirLe ds)

mutual

/-- `generate_tree(base)`: sort the listing (empty on `PermissionError`) and
fold the entries. -/
def generate_tree (pre : Str) : Option (List FSEntry) → Tree
  | none => Tree.mk [] []
  | some listing => processEntries pre (sortEntries listing)
termination_by o => sizeOf o
decreasing_by
  simp only [sizeOf_sortEntries, Option.some.sizeOf_spec]
  omega

/-- The `for entry in entries` loop of `generate_tree`: skip excluded names,
append qualifying files, recurse into directories. -/
def processEntries (pre : Str) : List FSEntry → Tree
  | [] => Tree.mk [] []
  | .file n c :: rest =>
    let t := processEntries pre rest
    if excludedName n then t
    else if is_rust_file n || n == str "README.md" then
      Tree.mk ((n, describe (relJoin pre n), line_count c) :: t.files) t.dirs
    else t
  | .dir n sub :: rest =>
    let t := processEntries pre rest
    if excludedName n then t
    else Tree.mk t.files ((n, generate_tree (relJoin pre n) sub) :: t.dirs)
termination_by l => sizeOf l
decreasing_by
  all_goals simp
  all_goals omega

end

end SourceMap

namespace SourceMap

mutual

/-- `count_total_lines(tree)`: sum of the file line counts plus the recursive sums. -/
def count_total_lines : Tree → Nat
  | .mk files dirs => (files.map (fun f => f.2.2)).sum + countLinesDirs dirs
termination_by t => sizeOf t

/-- The `for subtree in tree["dirs"].values()` accumulation of `count_total_lines`. -/
def countLinesDirs : List (Str × Tree) → Nat
  | [] => 0
  | p :: ps => count_total_lines p.2 + countLinesDirs ps
termination_by l => sizeOf l
decreasing_by
  all_goals obtain ⟨a, b⟩ := p
  all_goals simp
  all_goals omega

end

mutual

/-- `count_total_files(tree)`: number of files plus the recursive counts. -/
def count_total_files : Tree → Nat
  | .mk files dirs => files.length + countFilesDirs dirs
termination_by t => sizeOf t

/-- The `for subtree in tree["dirs"].values()` accumulation of `count_total_files`. -/
def countFilesDirs : List (Str × Tree) → Nat
  | [] => 0
  | p :: ps => count_total_files p.2 + countFilesDirs ps
termination_by l => sizeOf l
decreasing_by
  all_goals obtain ⟨a, b⟩ := p
  all_goals simp
  all_goals omega

end

mutual

/-- Specification-side notion: every file record reachable from a tree node,
in depth-first order. -/
def allFiles : Tree → List (Str × Str × Nat)
  | .mk files dirs => files ++ allFilesDirs dirs
termination_by t => sizeOf t

/-- `allFiles` over a directory list. -/
def allFilesDirs : List (Str × Tree) → List (Str × Str × Nat)
  | [] => []
  | p :: ps => allFiles p.2 ++ allFilesDirs ps
termination_by l => sizeOf l
decreasing_by
  all_goals obtain ⟨a, b⟩ := p
  all_goals simp
  all_goals omega

end

mutual

/-- Specification-side notion: every file or directory name occurring anywhere
in a tree. -/
def allNames : Tree → List Str
  | .mk files dirs => files.map (fun f => f.1) ++ allNamesDirs dirs
termination_by t => sizeOf t

/-- `allNames` over a directory list. -/
def allNamesDirs : List (Str × Tree) → List Str
  | [] => []
  | p :: ps => p.1 :: (allNames p.2 ++ allNamesDirs ps)
termination_by l => sizeOf l
decreasing_by
  all_goals obtain ⟨a, b⟩ := p
  all_goals simp
  all_goals omega

end

mutual

/-- `build_tree_visual(base, tree, prefix)`: directories (sorted) then files,
rendered with box-drawing connectors. The Python `base` and `is_last`
parameters do not influence the output and are omitted. -/
def build_tree_visual (t : Tree) (pre : Str) : List Str :=
  render_items pre (sortDirs t.dirs) t.files
termination_by sizeOf t
decreasing_by
  simp only [sizeOf_sortDirs]
  obtain ⟨fs, ds⟩ := t
  simp
  omega

/-- The `for idx, (item_type, name, data) in enumerate(items)` loop of
`build_tree_visual`: the combined item list is the sorted directories followed
by the files, and an item is last exactly when both remainders are empty. -/
def render_items (pre : Str) : List (Str × Tree) → List (Str × Str × Nat) → List Str
  | (n, sub) :: ds, files =>
    let isLast := ds.isEmpty && files.isEmpty
    let connector := if isLast then str "╰── " else str "├── "
    let ext := if isLast then str "    " else str "│   "
    (pre ++ connector ++ n ++ ['/']) ::
      (build_tree_visual sub (pre ++ ext) ++ render_items pre ds files)
  | [], f :: fs =>
    let connector := if fs.isEmpty then str "╰── " else str "├── "
    (pre ++ connector ++ f.1) :: render_items pre [] fs
  | [], [] => []
termination_by ds files => sizeOf ds + sizeOf files
decreasing_by
  all_goals simp
  all_goals omega

end

/-- `write_file_list(md, folder_path, tree)`: one bullet per file, with the
description suffix omitted for the sentinel. -/
def write_file_list (folder : Str) (t : Tree) : List Str :=
  t.files.map (fun f =>
    let rel := relJoin folder f.1
    if f.2.1 ≠ noDescription then
      str "- **[" ++ f.1 ++ str "](" ++ rel ++ str ")** – `" ++ natStr f.2.2 ++
        str " LoEC (Lines of Executable Code)` – " ++ f.2.1
    else
      str "- **[" ++ f.1 ++ str "](" ++ rel ++ str ")** – `" ++ natStr f.2.2 ++
        str " LoEC (Lines of Executable Code)`")

/-- The heading built for one directory section of `write_directory`. -/
def dir_heading (base : Str) (dirname : Str) (level : Nat) : Str :=
  let desc := describe (relJoin base dirname)
  (List.replicate (3 + level) '#') ++ [' '] ++ dirname ++ ['/'] ++
    (if desc ≠ noDescription then str " – " ++ desc else [])

mutual

/-- `write_directory(md, base, tree, level)`: one section per sorted
subdirectory; `write_section` contributes the blank line, the heading and a
second blank line. -/
def write_directory (base : Str) (t : Tree) (level : Nat) : List Str :=
  writeDirLoop base level (sortDirs t.dirs)
termination_by sizeOf t
decreasing_by
  simp only [sizeOf_sortDirs]
  obtain ⟨fs, ds⟩ := t
  simp

/-- The `for dirname, subtree in sorted(tree["dirs"].items())` loop of
`write_directory`. -/
def writeDirLoop (base : Str) (level : Nat) : List (Str × Tree) → List Str
  | [] => []
  | (dirname, subtree) :: ds =>
    let full := relJoin base dirname
    ([[], dir_heading base dirname level, []]
      ++ (if subtree.files.isEmpty then [str "*No files in this directory.*"]
          else write_file_list full subtree)
      ++ (if subtree.dirs.isEmpty then [] else write_directory full subtree (level + 1)))
      ++ writeDirLoop base level ds
termination_by ds => sizeOf ds
decreasing_by
  all_goals simp
  all_goals omega

end

/-- `(SRC_DIR / "main.rs").exists()`, as seen through the root listing. -/
def find_main (root : List FSEntry) : Option FSEntry :=
  root.find? (fun e => e.name == str "main.rs")

/-- `line_count(main_path)`: opening a directory raises and is caught, giving 0. -/
def entry_line_count : FSEntry → Nat
  | .file _ c => line_count c
  | .dir _ _ => 0

/-- The Entry Point bullet of the document. -/
def entry_bullet (e : FSEntry) : Str :=
  str "- **[main.rs](main.rs)** – `" ++ natStr (entry_line_count e) ++ str " lines` – " ++
    describe (str "main.rs")

/-- The lines appended after the `## Entry Point` section header: the bullet
when `main.rs` exists at the scan root, nothing otherwise. -/
def entry_point_lines (root : List FSEntry) : List Str :=
  match find_main root with
  | some e => [entry_bullet e]
  | none => []

/-- `generate_source_map()`: the complete document, as the list of elements
appended to `md` (the Project Structure code block is a single element
containing newlines). `root` is the listing of `SRC_DIR`, `now` the formatted
timestamp. -/
def generate_source_map (root : List FSEntry) (now : Str) : List Str :=
  let src_tree := generate_tree [] (some root)
  let total_lines := count_total_lines src_tree
  let total_files := count_total_files src_tree
  let tree_visual := joinNl (str "src/" :: build_tree_visual src_tree [])
  [str "# Cerium: Source Map (Auto-Generated)",
   [],
   str "> [!WARNING]",
   str "> Do not edit manually. This file is generated by `scripts/generate_source_map.py`.",
   [],
   str "## Overview",
   [],
   str "- **Total Files**: " ++ natStr total_files,
   str "- **Total Lines**: " ++ fmtComma total_lines,
   str "- **Language**: Rust, Python, Shell",
   [],
   str "## Project Structure",
   [],
   str "```",
   tree_visual,
   str "```"]
  ++ ([[], str "## Entry Point", []] ++ entry_point_lines root)
  ++ ([[], str "## Modules", []] ++ write_directory [] src_tree 0)
  ++ [[], str "---", [],
      str "*Generated by [generate_source_map.py](../scripts/generate_source_map.py) on " ++
        now ++ ['*']]

/-- An entry is the output file `README.md` (as a file, not a directory). -/
def isReadmeFile : FSEntry → Bool
  | .file n _ => n == str "README.md"
  | .dir _ _ => false

/-- Replace the content of the file `README.md`, leaving everything else alone. -/
def replaceReadme (c : List Str) (e : FSEntry) : FSEntry :=
  match e with
  | .file n _ => if n = str "README.md" then .file n (some c) else e
  | .dir n l => .dir n l

/-- `OUTPUT_FILE.write_text(...)`: overwrite the root's `README.md` if it is
present, create it otherwise. -/
def set_readme (root : List FSEntry) (c : List Str) : List FSEntry :=
  if root.any isReadmeFile then root.map (replaceReadme c)
  else root ++ [.file (str "README.md") (some c)]

/-- The text lines of the persisted document: the elements joined with
newlines and read back line by line. -/
def file_lines (md : List Str) : List Str := splitNl (joinNl md)

/-- The root listing after one run of the generator: the document has been
written to `README.md`. -/
def after_run (root : List FSEntry) (now : Str) : List FSEntry :=
  set_readme root (file_lines (generate_source_map root now))

end SourceMap

namespace SourceMap

theorem generate_tree_none (pre : Str) : generate_tree pre none = Tree.mk [] [] := by
  simp only [generate_tree]

theorem generate_tree_some (pre : Str) (l : List FSEntry) :
    generate_tree pre (some l) = processEntries pre (sortEntries l) := by
  simp only [generate_tree]

theorem processEntries_nil (pre : Str) : processEntries pre [] = Tree.mk [] [] := by
  simp only [processEntries]

theorem processEntries_file (pre n : Str) (c : Option (List Str)) (rest : List FSEntry) :
    processEntries pre (.file n c :: rest) =
      (let t := processEntries pre rest
       if excludedName n then t
       else if is_rust_file n || n == str "README.md" then
         Tree.mk ((n, describe (relJoin pre n), line_count c) :: t.files) t.dirs
       else t) := by
  simp only [processEntries]

theorem processEntries_dir (pre n : Str) (sub : Option (List FSEntry)) (rest : List FSEntry) :
    processEntries pre (.dir n sub :: rest) =
      (let t := processEntries pre rest
       if excludedName n then t
       else Tree.mk t.files ((n, generate_tree (relJoin pre n) sub) :: t.dirs)) := by
  simp only [processEntries]

end SourceMap

namespace SourceMap

/-- Fuel-indexed twin of `processEntries`/`generate_tree` (recursion into a
subdirectory inlined); structurally recursive, hence kernel-reducible. -/
def procEntF : Nat → Str → List FSEntry → Tree
  | 0, _, _ => Tree.mk [] []
  | _ + 1, _, [] => Tree.mk [] []
  | fuel + 1, pre, .file n c :: rest =>
    let t := procEntF fuel pre rest
    if excludedName n then t
    else if is_rust_file n || n == str "README.md" then
      Tree.mk ((n, describe (relJoin pre n), line_count c) :: t.files) t.dirs
    else t
  | fuel + 1, pre, .dir n sub :: rest =>
    let t := procEntF fuel pre rest
    if excludedName n then t
    else
      Tree.mk t.files ((n,
        match sub with
        | none => Tree.mk [] []
        | some l => procEntF fuel (relJoin pre n) (sortEntries l)) :: t.dirs)

/-- Fuel-indexed twin of `generate_tree`. -/
def genTreeF (fuel : Nat) (pre : Str) : Option (List FSEntry) → Tree
  | none => Tree.mk [] []
  | some l => procEntF fuel pre (sortEntries l)

theorem procEntF_eq : ∀ (fuel : Nat) (pre : Str) (l : List FSEntry), sizeOf l ≤ fuel →
    procEntF fuel pre l = processEntries pre l := by
  intro fuel
  induction fuel with
  | zero =>
    intro pre l h
    exfalso
    cases l <;> simp at h
  | succ fuel ih =>
    intro pre l h
    match l with
    | [] => rw [processEntries_nil]; rfl
    | .file n c :: rest =>
      rw [processEntries_file]
      have hr : sizeOf rest ≤ fuel := by simp at h; omega
      simp only [procEntF]
      rw [ih pre rest hr]
    | .dir n sub :: rest =>
      rw [processEntries_dir]
      have hr : sizeOf rest ≤ fuel := by simp at h; omega
      simp only [procEntF]
      rw [ih pre rest hr]
      cases sub with
      | none => rw [generate_tree_none]
      | some l' =>
        rw [generate_tree_some]
        have h2 : sizeOf (sortEntries l') ≤ fuel := by
          rw [sizeOf_sortEntries]; simp at h; omega
        simp only [ih (relJoin pre n) (sortEntries l') h2]

/-- Kernel-evaluation form of `generate_tree`. -/
theorem generate_tree_eval (pre : Str) (o : Option (List FSEntry)) :
    generate_tree pre o = genTreeF (sizeOf o) pre o := by
  cases o with
  | none => rw [generate_tree_none]; rfl
  | some l =>
    rw [generate_tree_some]
    show _ = procEntF (sizeOf (some l)) pre (sortEntries l)
    exact (procEntF_eq _ _ _ (by rw [sizeOf_sortEntries]; simp)).symm

end SourceMap

namespace SourceMap

theorem count_total_lines_mk (files : List (Str × Str × Nat)) (dirs : List (Str × Tree)) :
    count_total_lines (.mk files dirs) = (files.map (fun f => f.2.2)).sum + countLinesDirs dirs := by
  simp only [count_total_lines]

theorem countLinesDirs_nil : countLinesDirs [] = 0 := by
  simp only [countLinesDirs]

theorem countLinesDirs_cons (p : Str × Tree) (ps : List (Str × Tree)) :
    countLinesDirs (p :: ps) = count_total_lines p.2 + countLinesDirs ps := by
  simp only [countLinesDirs]

theorem count_total_files_mk (files : List (Str × Str × Nat)) (dirs : List (Str × Tree)) :
    count_total_files (.mk files dirs) = files.length + countFilesDirs dirs := by
  simp only [count_total_files]

theorem countFilesDirs_nil : countFilesDirs [] = 0 := by
  simp only [countFilesDirs]

theorem countFilesDirs_cons (p : Str × Tree) (ps : List (Str × Tree)) :
    countFilesDirs (p :: ps) = count_total_files p.2 + countFilesDirs ps := by
  simp only [countFilesDirs]

theorem allFiles_mk (files : List (Str × Str × Nat)) (dirs : List (Str × Tree)) :
    allFiles (.mk files dirs) = files ++ allFilesDirs dirs := by
  simp only [allFiles]

theorem allFilesDirs_nil : allFilesDirs [] = [] := by
  simp only [allFilesDirs]

theorem allFilesDirs_cons (p : Str × Tree) (ps : List (Str × Tree)) :
    allFilesDirs (p :: ps) = allFiles p.2 ++ allFilesDirs ps := by
  simp only [allFilesDirs]

theorem allNames_mk (files : List (Str × Str × Nat)) (dirs : List (Str × Tree)) :
    allNames (.mk files dirs) = files.map (fun f => f.1) ++ allNamesDirs dirs := by
  simp only [allNames]

theorem allNamesDirs_nil : allNamesDirs [] = [] := by
  simp only [allNamesDirs]

theorem allNamesDirs_cons (p : Str × Tree) (ps : List (Str × Tree)) :
    allNamesDirs (p :: ps) = p.1 :: (allNames p.2 ++ allNamesDirs ps) := by
  simp only [allNamesDirs]

/-- Fuel-indexed twin of `countLinesDirs` (with `count_total_lines` inlined). -/
def countLinesDirsF : Nat → List (Str × Tree) → Nat
  | 0, _ => 0
  | _ + 1, [] => 0
  | fuel + 1, (_, Tree.mk files dirs) :: ps =>
    ((files.map (fun f => f.2.2)).sum + countLinesDirsF fuel dirs) + countLinesDirsF fuel ps

/-- Fuel-indexed twin of `count_total_lines`. -/
def countTotalLinesF (fuel : Nat) : Tree → Nat
  | .mk files dirs => (files.map (fun f => f.2.2)).sum + countLinesDirsF fuel dirs

theorem countLinesDirsF_eq : ∀ (fuel : Nat) (ds : List (Str × Tree)), sizeOf ds ≤ fuel →
    countLinesDirsF fuel ds = countLinesDirs ds := by
  intro fuel
  induction fuel with
  | zero =>
    intro ds h
    exfalso
    cases ds <;> simp at h
  | succ fuel ih =>
    intro ds h
    match ds with
    | [] => rw [countLinesDirs_nil]; rfl
    | (a, Tree.mk files dirs) :: ps =>
      rw [countLinesDirs_cons]
      have h1 : sizeOf dirs ≤ fuel := by simp at h; omega
      have h2 : sizeOf ps ≤ fuel := by simp at h; omega
      simp only [countLinesDirsF, ih dirs h1, ih ps h2, count_total_lines_mk]

/-- Kernel-evaluation form of `count_total_lines`. -/
theorem count_total_lines_eval (t : Tree) :
    count_total_lines t = countTotalLinesF (sizeOf t) t := by
  obtain ⟨files, dirs⟩ := t
  rw [count_total_lines_mk]
  show _ = (files.map (fun f => f.2.2)).sum + countLinesDirsF (sizeOf (Tree.mk files dirs)) dirs
  rw [countLinesDirsF_eq _ _ (by simp)]

/-- Fuel-indexed twin of `countFilesDirs` (with `count_total_files` inlined). -/
def countFilesDirsF : Nat → List (Str × Tree) → Nat
  | 0, _ => 0
  | _ + 1, [] => 0
  | fuel + 1, (_, Tree.mk files dirs) :: ps =>
    (files.length + countFilesDirsF fuel dirs) + countFilesDirsF fuel ps

/-- Fuel-indexed twin of `count_total_files`. -/
def countTotalFilesF (fuel : Nat) : Tree → Nat
  | .mk files dirs => files.length + countFilesDirsF fuel dirs

theorem countFilesDirsF_eq : ∀ (fuel : Nat) (ds : List (Str × Tree)), sizeOf ds ≤ fuel →
    countFilesDirsF fuel ds = countFilesDirs ds := by
  intro fuel
  induction fuel with
  | zero =>
    intro ds h
    exfalso
    cases ds <;> simp at h
  | succ fuel ih =>
    intro ds h
    match ds with
    | [] => rw [countFilesDirs_nil]; rfl
    | (a, Tree.mk files dirs) :: ps =>
      rw [countFilesDirs_cons]
      have h1 : sizeOf dirs ≤ fuel := by simp at h; omega
      have h2 : sizeOf ps ≤ fuel := by simp at h; omega
      simp only [countFilesDirsF, ih dirs h1, ih ps h2, count_total_files_mk]

/-- Kernel-evaluation form of `count_total_files`. -/
theorem count_total_files_eval (t : Tree) :
    count_total_files t = countTotalFilesF (sizeOf t) t := by
  obtain ⟨files, dirs⟩ := t
  rw [count_total_files_mk]
  show _ = files.length + countFilesDirsF (sizeOf (Tree.mk files dirs)) dirs
  rw [countFilesDirsF_eq _ _ (by simp)]

/-- Fuel-indexed twin of `allFilesDirs` (with `allFiles` inlined). -/
def allFilesDirsF : Nat → List (Str × Tree) → List (Str × Str × Nat)
  | 0, _ => []
  | _ + 1, [] => []
  | fuel + 1, (_, Tree.mk files dirs) :: ps =>
    (files ++ allFilesDirsF fuel dirs) ++ allFilesDirsF fuel ps

/-- Fuel-indexed twin of `allFiles`. -/
def allFilesF (fuel : Nat) : Tree → List (Str × Str × Nat)
  | .mk files dirs => files ++ allFilesDirsF fuel dirs

theorem allFilesDirsF_eq : ∀ (fuel : Nat) (ds : List (Str × Tree)), sizeOf ds ≤ fuel →
    allFilesDirsF fuel ds = allFilesDirs ds := by
  intro fuel
  induction fuel with
  | zero =>
    intro ds h
    exfalso
    cases ds <;> simp at h
  | succ fuel ih =>
    intro ds h
    match ds with
    | [] => rw [allFilesDirs_nil]; rfl
    | (a, Tree.mk files dirs) :: ps =>
      rw [allFilesDirs_cons]
      have h1 : sizeOf dirs ≤ fuel := by simp at h; omega
      have h2 : sizeOf ps ≤ fuel := by simp at h; omega
      simp only [allFilesDirsF, ih dirs h1, ih ps h2, allFiles_mk, List.append_assoc]

/-- Kernel-evaluation form of `allFiles`. -/
theorem allFiles_eval (t : Tree) : allFiles t = allFilesF (sizeOf t) t := by
  obtain ⟨files, dirs⟩ := t
  rw [allFiles_mk]
  show _ = files ++ allFilesDirsF (sizeOf (Tree.mk files dirs)) dirs
  rw [allFilesDirsF_eq _ _ (by simp)]

/-- Fuel-indexed twin of `allNamesDirs` (with `allNames` inlined). -/
def allNamesDirsF : Nat → List (Str × Tree) → List Str
  | 0, _ => []
  | _ + 1, [] => []
  | fuel + 1, (a, Tree.mk files dirs) :: ps =>
    a :: ((files.map (fun f => f.1) ++ allNamesDirsF fuel dirs) ++ allNamesDirsF fuel ps)

/-- Fuel-indexed twin of `allNames`. -/
def allNamesF (fuel : Nat) : Tree → List Str
  | .mk files dirs => files.map (fun f => f.1) ++ allNamesDirsF fuel dirs

theorem allNamesDirsF_eq : ∀ (fuel : Nat) (ds : List (Str × Tree)), sizeOf ds ≤ fuel →
    allNamesDirsF fuel ds = allNamesDirs ds := by
  intro fuel
  induction fuel with
  | zero =>
    intro ds h
    exfalso
    cases ds <;> simp at h
  | succ fuel ih =>
    intro ds h
    match ds with
    | [] => rw [allNamesDirs_nil]; rfl
    | (a, Tree.mk files dirs) :: ps =>
      rw [allNamesDirs_cons]
      have h1 : sizeOf dirs ≤ fuel := by simp at h; omega
      have h2 : sizeOf ps ≤ fuel := by simp at h; omega
      simp only [allNamesDirsF, ih dirs h1, ih ps h2, allNames_mk, List.append_assoc]

/-- Kernel-evaluation form of `allNames`. -/
theorem allNames_eval (t : Tree) : allNames t = allNamesF (sizeOf t) t := by
  obtain ⟨files, dirs⟩ := t
  rw [allNames_mk]
  show _ = files.map (fun f => f.1) ++ allNamesDirsF (sizeOf (Tree.mk files dirs)) dirs
  rw [allNamesDirsF_eq _ _ (by simp)]

end SourceMap

namespace SourceMap

theorem build_tree_visual_def (t : Tree) (pre : Str) :
    build_tree_visual t pre = render_items pre (sortDirs t.dirs) t.files := by
  simp only [build_tree_visual]

theorem render_items_nil (pre : Str) : render_items pre [] [] = [] := by
  simp only [render_items]

theorem render_items_dir (pre n : Str) (sub : Tree) (ds : List (Str × Tree))
    (files : List (Str × Str × Nat)) :
    render_items pre ((n, sub) :: ds) files =
      (let isLast := ds.isEmpty && files.isEmpty
       let connector := if isLast then str "╰── " else str "├── "
       let ext := if isLast then str "    " else str "│   "
       (pre ++ connector ++ n ++ ['/']) ::
         (build_tree_visual sub (pre ++ ext) ++ render_items pre ds files)) := by
  simp only [render_items]

theorem render_items_file (pre : Str) (f : Str × Str × Nat) (fs : List (Str × Str × Nat)) :
    render_items pre [] (f :: fs) =
      (let connector := if fs.isEmpty then str "╰── " else str "├── "
       (pre ++ connector ++ f.1) :: render_items pre [] fs) := by
  simp only [render_items]

/-- Fuel-indexed twin of `render_items` (recursion into subtrees inlined). -/
def renderItemsF : Nat → Str → List (Str × Tree) → List (Str × Str × Nat) → List Str
  | 0, _, _, _ => []
  | fuel + 1, pre, (n, Tree.mk sfiles sdirs) :: ds, files =>
    let isLast := ds.isEmpty && files.isEmpty
    let connector := if isLast then str "╰── " else str "├── "
    let ext := if isLast then str "    " else str "│   "
    (pre ++ connector ++ n ++ ['/']) ::
      (renderItemsF fuel (pre ++ ext) (sortDirs sdirs) sfiles ++ renderItemsF fuel pre ds files)
  | fuel + 1, pre, [], f :: fs =>
    let connector := if fs.isEmpty then str "╰── " else str "├── "
    (pre ++ connector ++ f.1) :: renderItemsF fuel pre [] fs
  | _ + 1, _, [], [] => []

/-- Fuel-indexed twin of `build_tree_visual`. -/
def buildTreeVisualF (fuel : Nat) : Tree → Str → List Str
  | .mk sfiles sdirs, pre => renderItemsF fuel pre (sortDirs sdirs) sfiles

theorem renderItemsF_eq : ∀ (fuel : Nat) (pre : Str) (ds : List (Str × Tree))
    (files : List (Str × Str × Nat)), sizeOf ds + sizeOf files ≤ fuel →
    renderItemsF fuel pre ds files = render_items pre ds files := by
  intro fuel
  induction fuel with
  | zero =>
    intro pre ds files h
    exfalso
    cases ds <;> simp at h
  | succ fuel ih =>
    intro pre ds files h
    match ds, files with
    | [], [] => rw [render_items_nil]; rfl
    | [], f :: fs =>
      rw [render_items_file]
      have h1 : sizeOf ([] : List (Str × Tree)) + sizeOf fs ≤ fuel := by simp at h ⊢; omega
      simp only [renderItemsF, ih pre [] fs h1]
    | (n, Tree.mk sfiles sdirs) :: ds', files =>
      rw [render_items_dir]
      have h1 : sizeOf (sortDirs sdirs) + sizeOf sfiles ≤ fuel := by
        rw [sizeOf_sortDirs]; simp at h ⊢; omega
      have h2 : sizeOf ds' + sizeOf files ≤ fuel := by simp at h ⊢; omega
      simp only [renderItemsF, ih _ _ _ h1, ih _ _ _ h2, build_tree_visual_def, Tree.dirs_mk,
        Tree.files_mk]

/-- Kernel-evaluation form of `build_tree_visual`. -/
theorem build_tree_visual_eval (t : Tree) (pre : Str) :
    build_tree_visual t pre = buildTreeVisualF (sizeOf t) t pre := by
  obtain ⟨files, dirs⟩ := t
  rw [build_tree_visual_def]
  simp only [Tree.dirs_mk, Tree.files_mk]
  show _ = renderItemsF (sizeOf (Tree.mk files dirs)) pre (sortDirs dirs) files
  rw [renderItemsF_eq _ _ _ _ (by rw [sizeOf_sortDirs]; simp; omega)]

theorem write_directory_def (base : Str) (t : Tree) (level : Nat) :
    write_directory base t level = writeDirLoop base level (sortDirs t.dirs) := by
  simp only [write_directory]

theorem writeDirLoop_nil (base : Str) (level : Nat) : writeDirLoop base level [] = [] := by
  simp only [writeDirLoop]

theorem writeDirLoop_cons (base : Str) (level : Nat) (dirname : Str) (subtree : Tree)
    (ds : List (Str × Tree)) :
    writeDirLoop base level ((dirname, subtree) :: ds) =
      (let full := relJoin base dirname
       ([[], dir_heading base dirname level, []]
         ++ (if subtree.files.isEmpty then [str "*No files in this directory.*"]
             else write_file_list full subtree)
         ++ (if subtree.dirs.isEmpty then [] else write_directory full subtree (level + 1)))
         ++ writeDirLoop base level ds) := by
  simp only [writeDirLoop]

/-- Fuel-indexed twin of `writeDirLoop` (recursion into subtrees inlined). -/
def writeDirLoopF : Nat → Str → Nat → List (Str × Tree) → List Str
  | 0, _, _, _ => []
  | _ + 1, _, _, [] => []
  | fuel + 1, base, level, (dirname, Tree.mk sfiles sdirs) :: ds =>
    ([[], dir_heading base dirname level, []]
      ++ (if sfiles.isEmpty then [str "*No files in this directory.*"]
          else write_file_list (relJoin base dirname) (Tree.mk sfiles sdirs))
      ++ (if sdirs.isEmpty then []
          else writeDirLoopF fuel (relJoin base dirname) (level + 1) (sortDirs sdirs)))
      ++ writeDirLoopF fuel base level ds

/-- Fuel-indexed twin of `write_directory`. -/
def writeDirectoryF (fuel : Nat) (base : Str) : Tree → Nat → List Str
  | .mk _ sdirs, level => writeDirLoopF fuel base level (sortDirs sdirs)

theorem writeDirLoopF_eq : ∀ (fuel : Nat) (base : Str) (level : Nat)
    (ds : List (Str × Tree)), sizeOf ds ≤ fuel →
    writeDirLoopF fuel base level ds = writeDirLoop base level ds := by
  intro fuel
  induction fuel with
  | zero =>
    intro base level ds h
    exfalso
    cases ds <;> simp at h
  | succ fuel ih =>
    intro base level ds h
    match ds with
    | [] => rw [writeDirLoop_nil]; rfl
    | (dirname, Tree.mk sfiles sdirs) :: ds' =>
      rw [writeDirLoop_cons]
      have h1 : sizeOf (sortDirs sdirs) ≤ fuel := by rw [sizeOf_sortDirs]; simp at h ⊢; omega
      have h2 : sizeOf ds' ≤ fuel := by simp at h ⊢; omega
      simp only [writeDirLoopF, ih _ _ _ h1, ih _ _ _ h2, write_directory_def, Tree.dirs_mk,
        Tree.files_mk]

/-- Kernel-evaluation form of `write_directory`. -/
theorem write_directory_eval (base : Str) (t : Tree) (level : Nat) :
    write_directory base t level = writeDirectoryF (sizeOf t) base t level := by
  obtain ⟨files, dirs⟩ := t
  rw [write_directory_def]
  simp only [Tree.dirs_mk]
  show _ = writeDirLoopF (sizeOf (Tree.mk files dirs)) base level (sortDirs dirs)
  rw [writeDirLoopF_eq _ _ _ _ (by rw [sizeOf_sortDirs]; simp)]

/-- Kernel-evaluation form of `generate_source_map`: the same document with
every well-founded recursion replaced by its fuel twin. -/
theorem generate_source_map_eval (root : List FSEntry) (now : Str) :
    generate_source_map root now =
      (let src_tree := genTreeF (sizeOf (some root)) [] (some root)
       let total_lines := countTotalLinesF (sizeOf src_tree) src_tree
       let total_files := countTotalFilesF (sizeOf src_tree) src_tree
       let tree_visual := joinNl (str "src/" :: buildTreeVisualF (sizeOf src_tree) src_tree [])
       [str "# Cerium: Source Map (Auto-Generated)",
        [],
        str "> [!WARNING]",
        str "> Do not edit manually. This file is generated by `scripts/generate_source_map.py`.",
        [],
        str "## Overview",
        [],
        str "- **Total Files**: " ++ natStr total_files,
        str "- **Total Lines**: " ++ fmtComma total_lines,
        str "- **Language**: Rust, Python, Shell",
        [],
        str "## Project Structure",
        [],
        str "```",
        tree_visual,
        str "```"]
       ++ ([[], str "## Entry Point", []] ++ entry_point_lines root)
       ++ ([[], str "## Modules", []] ++ writeDirectoryF (sizeOf src_tree) [] src_tree 0)
       ++ [[], str "---", [],
           str "*Generated by [generate_source_map.py](../scripts/generate_source_map.py) on " ++
             now ++ ['*']]) := by
  simp only [generate_source_map, generate_tree_eval, count_total_lines_eval,
    count_total_files_eval, build_tree_visual_eval, write_directory_eval]

end SourceMap

namespace SourceMap

theorem strLe_total : ∀ s t : Str, strLe s t = true ∨ strLe t s = true := by
  intro s
  induction s with
  | nil => intro t; left; rfl
  | cons a as ih =>
    intro t
    cases t with
    | nil => right; rfl
    | cons b bs =>
      rcases lt_trichotomy a b with h | h | h
      · left; simp [strLe, h]
      · subst h
        rcases ih bs with h' | h'
        · left; simp [strLe, h']
        · right; simp [strLe, h']
      · right; simp [strLe, h]

theorem strLe_trans : ∀ s t u : Str, strLe s t = true → strLe t u = true → strLe s u = true := by
  intro s
  induction s with
  | nil => intro t u _ _; rfl
  | cons a as ih =>
    intro t u h₁ h₂
    cases t with
    | nil => simp [strLe] at h₁
    | cons b bs =>
      cases u with
      | nil => simp [strLe] at h₂
      | cons c cs =>
        rcases lt_trichotomy a b with hab | hab | hab
        · rcases lt_trichotomy b c with hbc | hbc | hbc
          · simp [strLe, lt_trans hab hbc]
          · subst hbc; simp [strLe, hab]
          · simp [strLe, hbc, hbc.not_lt, (ne_of_gt hbc)] at h₂
        · subst hab
          rcases lt_trichotomy a c with hac | hac | hac
          · simp [strLe, hac]
          · subst hac
            simp [strLe, lt_irrefl] at h₁ h₂ ⊢
            exact ih _ _ h₁ h₂
          · simp [strLe, hac.not_lt, (ne_of_gt hac)] at h₂
        · simp [strLe, hab.not_lt, (ne_of_gt hab)] at h₁

theorem strLe_antisymm : ∀ s t : Str, strLe s t = true → strLe t s = true → s = t := by
  intro s
  induction s with
  | nil =>
    intro t _ h₂
    cases t with
    | nil => rfl
    | cons b bs => simp [strLe] at h₂
  | cons a as ih =>
    intro t h₁ h₂
    cases t with
    | nil => simp [strLe] at h₁
    | cons b bs =>
      rcases lt_trichotomy a b with hab | hab | hab
      · simp [strLe, hab.not_lt, ne_of_gt hab] at h₂
      · subst hab
        simp [strLe, lt_irrefl] at h₁ h₂
        rw [ih bs h₁ h₂]
      · simp [strLe, hab.not_lt, ne_of_gt hab] at h₁

instance : IsTotal FSEntry entryLe :=
  ⟨fun a b => strLe_total a.name b.name⟩

instance : IsTrans FSEntry entryLe :=
  ⟨fun a b c => strLe_trans a.name b.name c.name⟩

instance : IsTotal (Str × Tree) dirLe :=
  ⟨fun a b => strLe_total a.1 b.1⟩

instance : IsTrans (Str × Tree) dirLe :=
  ⟨fun a b c => strLe_trans a.1 b.1 c.1⟩

/-- In a list with distinct keys, two members with the same key are the same element. -/
theorem mem_unique_of_nodup_keys {α : Type} (key : α → Str) :
    ∀ (l : List α), (l.map key).Nodup → ∀ a b, a ∈ l → b ∈ l → key a = key b → a = b := by
  intro l
  induction l with
  | nil => intro _ a b ha; cases ha
  | cons x xs ih =>
    intro hnd a b ha hb hk
    simp only [List.map_cons, List.nodup_cons] at hnd
    rcases List.mem_cons.mp ha with rfl | ha'
    · rcases List.mem_cons.mp hb with rfl | hb'
      · rfl
      · exact absurd (hk ▸ List.mem_map_of_mem key hb') hnd.1
    · rcases List.mem_cons.mp hb with rfl | hb'
      · exact absurd (hk ▸ List.mem_map_of_mem key ha') hnd.1
      · exact ih hnd.2 a b ha' hb' hk

/-- Two sorted lists with the same distinct keys, that are permutations of each
other, are equal: sorting by name has a unique result on real directory
listings. -/
theorem eq_of_perm_sorted_nodup_keys {α : Type} (key : α → Str) :
    ∀ (l₁ l₂ : List α), l₁.Perm l₂ →
      l₁.Pairwise (fun a b => strLe (key a) (key b) = true) →
      l₂.Pairwise (fun a b => strLe (key a) (key b) = true) →
      (l₁.map key).Nodup → l₁ = l₂ := by
  intro l₁
  induction l₁ with
  | nil =>
    intro l₂ hp _ _ _
    exact (hp.nil_eq).symm ▸ rfl
  | cons a t₁ ih =>
    intro l₂ hp hs₁ hs₂ hnd
    cases l₂ with
    | nil => exact absurd hp.symm.nil_eq (by simp)
    | cons b t₂ =>
      by_cases hab : a = b
      · subst hab
        have hp' := hp.cons_inv
        simp only [List.pairwise_cons] at hs₁ hs₂
        simp only [List.map_cons, List.nodup_cons] at hnd
        rw [ih t₂ hp' hs₁.2 hs₂.2 hnd.2]
      · exfalso
        have haint2 : a ∈ t₂ := by
          have : a ∈ b :: t₂ := hp.mem_iff.mp (List.mem_cons_self a t₁)
          rcases List.mem_cons.mp this with h | h
          · exact absurd h hab
          · exact h
        have hbint1 : b ∈ t₁ := by
          have : b ∈ a :: t₁ := hp.mem_iff.mpr (List.mem_cons_self b t₂)
          rcases List.mem_cons.mp this with h | h
          · exact absurd h.symm hab
          · exact h
        have h₁ : strLe (key a) (key b) = true :=
          (List.pairwise_cons.mp hs₁).1 b hbint1
        have h₂ : strLe (key b) (key a) = true :=
          (List.pairwise_cons.mp hs₂).1 a haint2
        have hk : key a = key b := strLe_antisymm _ _ h₁ h₂
        simp only [List.map_cons, List.nodup_cons] at hnd
        exact hnd.1 (hk ▸ List.mem_map_of_mem key hbint1)

end SourceMap

namespace SourceMap

@[simp] theorem Tree.eta (t : Tree) : Tree.mk t.files t.dirs = t := by
  cases t
  rfl

/-- Sorting commutes with a name-preserving replacement, on listings with
distinct names. -/
theorem sortEntries_map (f : FSEntry → FSEntry) (hf : ∀ e, (f e).name = e.name)
    (l : List FSEntry) (hnd : (l.map FSEntry.name).Nodup) :
    sortEntries (l.map f) = (sortEntries l).map f := by
  have hperm : sortEntries (l.map f) |>.Perm ((sortEntries l).map f) :=
    (List.perm_insertionSort _ _).trans ((List.perm_insertionSort entryLe l).map f).symm
  have hkeys : (l.map f).map FSEntry.name = l.map FSEntry.name := by
    rw [List.map_map]
    exact List.map_congr_left (fun e _ => hf e)
  apply eq_of_perm_sorted_nodup_keys FSEntry.name _ _ hperm
  · exact List.sorted_insertionSort entryLe _
  · rw [List.pairwise_map]
    exact (List.sorted_insertionSort entryLe l).imp
      (fun {a b} h => by
        show strLe (f a).name (f b).name = true
        rw [hf, hf]
        exact h)
  · have : (sortEntries (l.map f)).map FSEntry.name |>.Perm ((l.map f).map FSEntry.name) :=
      (List.perm_insertionSort _ _).map _
    rw [this.nodup_iff, hkeys]
    exact hnd

/-- Sorting commutes with filtering, on listings with distinct names. -/
theorem sortEntries_filter (p : FSEntry → Bool) (l : List FSEntry)
    (hnd : (l.map FSEntry.name).Nodup) :
    sortEntries (l.filter p) = (sortEntries l).filter p := by
  have hperm : sortEntries (l.filter p) |>.Perm ((sortEntries l).filter p) :=
    (List.perm_insertionSort _ _).trans ((List.perm_insertionSort entryLe l).filter p).symm
  apply eq_of_perm_sorted_nodup_keys FSEntry.name _ _ hperm
  · exact List.sorted_insertionSort entryLe _
  · exact List.Pairwise.sublist (List.filter_sublist _) (List.sorted_insertionSort entryLe l)
  · have h1 : (sortEntries (l.filter p)).map FSEntry.name |>.Perm
        ((l.filter p).map FSEntry.name) :=
      (List.perm_insertionSort _ _).map _
    rw [h1.nodup_iff]
    exact List.Nodup.sublist ((List.filter_sublist l).map FSEntry.name) hnd

/-- One loop iteration contributes its own files and dirs in front of the rest. -/
theorem processEntries_cons_decomp (pre : Str) (e : FSEntry) (rest : List FSEntry) :
    processEntries pre (e :: rest) =
      Tree.mk ((processEntries pre [e]).files ++ (processEntries pre rest).files)
        ((processEntries pre [e]).dirs ++ (processEntries pre rest).dirs) := by
  cases e with
  | file n c =>
    rw [processEntries_file, processEntries_file pre n c [], processEntries_nil]
    by_cases h : excludedName n
    · simp [h]
    · by_cases h2 : (is_rust_file n || n == str "README.md") = true
      · simp [h, h2]
      · simp [h, h2]
  | dir n sub =>
    rw [processEntries_dir, processEntries_dir pre n sub [], processEntries_nil]
    by_cases h : excludedName n
    · simp [h]
    · simp [h]

/-- An entry that fails the skip test or the inclusion rule contributes nothing. -/
theorem processEntries_single_not_kept (pre : Str) (e : FSEntry) (h : keepEntry e = false) :
    processEntries pre [e] = Tree.mk [] [] := by
  cases e with
  | file n c =>
    rw [processEntries_file, processEntries_nil]
    by_cases hex : excludedName n
    · simp [hex]
    · simp only [keepEntry, hex, Bool.not_false, Bool.true_and] at h
      simp [hex, h]
  | dir n sub =>
    have hex : excludedName n = true := by simpa [keepEntry] using h
    rw [processEntries_dir, processEntries_nil]
    simp [hex]

/-- The loop only sees entries surviving the skip and inclusion tests. -/
theorem processEntries_filter_keep (pre : Str) :
    ∀ l : List FSEntry, processEntries pre l = processEntries pre (l.filter keepEntry) := by
  intro l
  induction l with
  | nil => rfl
  | cons e rest ih =>
    by_cases hk : keepEntry e = true
    · rw [List.filter_cons_of_pos hk, processEntries_cons_decomp,
        processEntries_cons_decomp pre e (rest.filter keepEntry), ih]
    · rw [List.filter_cons_of_neg (by simpa using hk), processEntries_cons_decomp,
        processEntries_single_not_kept pre e (by simpa using hk), ih]
      simp

/-- Replacing entries without changing any contribution leaves the tree unchanged. -/
theorem processEntries_map (pre : Str) (f : FSEntry → FSEntry) :
    ∀ l : List FSEntry, (∀ e ∈ l, processEntries pre [f e] = processEntries pre [e]) →
    processEntries pre (l.map f) = processEntries pre l := by
  intro l
  induction l with
  | nil => intro _; rfl
  | cons e rest ih =>
    intro h
    rw [List.map_cons, processEntries_cons_decomp pre (f e) (rest.map f),
      processEntries_cons_decomp pre e rest, h e (List.mem_cons_self e rest),
      ih (fun x hx => h x (List.mem_cons_of_mem e hx))]

/-- Removing a skipped or non-qualifying entry from a listing with distinct
names leaves the generated tree unchanged. -/
theorem generate_tree_remove (pre : Str) (l₁ l₂ : List FSEntry) (x : FSEntry)
    (hx : keepEntry x = false) (hnd : ((l₁ ++ x :: l₂).map FSEntry.name).Nodup) :
    generate_tree pre (some (l₁ ++ x :: l₂)) = generate_tree pre (some (l₁ ++ l₂)) := by
  have hnd₂ : ((l₁ ++ l₂).map FSEntry.name).Nodup := by
    apply List.Nodup.sublist _ hnd
    apply List.Sublist.map
    exact List.Sublist.append_left (List.sublist_cons_self x l₂) l₁
  rw [generate_tree_some, generate_tree_some,
    processEntries_filter_keep pre (sortEntries (l₁ ++ x :: l₂)),
    processEntries_filter_keep pre (sortEntries (l₁ ++ l₂)),
    ← sortEntries_filter keepEntry _ hnd, ← sortEntries_filter keepEntry _ hnd₂,
    List.filter_append, List.filter_append, List.filter_cons_of_neg (by simpa using hx)]

end SourceMap

namespace SourceMap

theorem countFilesDirsF_length : ∀ (fuel : Nat) (ds : List (Str × Tree)),
    countFilesDirsF fuel ds = (allFilesDirsF fuel ds).length := by
  intro fuel
  induction fuel with
  | zero => intro ds; rfl
  | succ fuel ih =>
    intro ds
    match ds with
    | [] => rfl
    | (a, Tree.mk files dirs) :: ps =>
      simp only [countFilesDirsF, allFilesDirsF, List.length_append, ih]

theorem countLinesDirsF_sum : ∀ (fuel : Nat) (ds : List (Str × Tree)),
    countLinesDirsF fuel ds = ((allFilesDirsF fuel ds).map (fun f => f.2.2)).sum := by
  intro fuel
  induction fuel with
  | zero => intro ds; rfl
  | succ fuel ih =>
    intro ds
    match ds with
    | [] => rfl
    | (a, Tree.mk files dirs) :: ps =>
      simp only [countLinesDirsF, allFilesDirsF, List.map_append, List.sum_append, ih]

theorem count_total_files_length (t : Tree) : count_total_files t = (allFiles t).length := by
  rw [count_total_files_eval, allFiles_eval]
  obtain ⟨files, dirs⟩ := t
  simp only [countTotalFilesF, allFilesF, List.length_append, countFilesDirsF_length]

theorem count_total_lines_sum (t : Tree) :
    count_total_lines t = ((allFiles t).map (fun f => f.2.2)).sum := by
  rw [count_total_lines_eval, allFiles_eval]
  obtain ⟨files, dirs⟩ := t
  simp only [countTotalLinesF, allFilesF, List.map_append, List.sum_append, countLinesDirsF_sum]

/-- C1: the Overview totals are exactly the number of file records reachable
from the root and the sum of their line counts, and any two trees whose
reachable file records are permutations of one another (any visiting order of
the subtrees) report the same totals. -/
theorem c1_overview_totals (t : Tree) :
    count_total_files t = (allFiles t).length ∧
    count_total_lines t = ((allFiles t).map (fun f => f.2.2)).sum ∧
    (∀ t' : Tree, (allFiles t).Perm (allFiles t') →
      count_total_files t = count_total_files t' ∧
      count_total_lines t = count_total_lines t') := by
  refine ⟨count_total_files_length t, count_total_lines_sum t, ?_⟩
  intro t' hp
  constructor
  · rw [count_total_files_length, count_total_files_length]
    exact hp.length_eq
  · rw [count_total_lines_sum, count_total_lines_sum]
    exact (hp.map (fun f => f.2.2)).sum_eq

/-- Witness for C1 at two concrete trees that visit the same file records in
different orders. -/
theorem c1_overview_totals_witness :
    ((allFiles (Tree.mk [(str "a.rs", str "d", 2)]
        [(str "x", Tree.mk [(str "b.rs", str "e", 3)] [])])).Perm
      (allFiles (Tree.mk [(str "b.rs", str "e", 3)]
        [(str "y", Tree.mk [(str "a.rs", str "d", 2)] [])]))) ∧
    count_total_files (Tree.mk [(str "a.rs", str "d", 2)]
        [(str "x", Tree.mk [(str "b.rs", str "e", 3)] [])]) =
      count_total_files (Tree.mk [(str "b.rs", str "e", 3)]
        [(str "y", Tree.mk [(str "a.rs", str "d", 2)] [])]) ∧
    count_total_lines (Tree.mk [(str "a.rs", str "d", 2)]
        [(str "x", Tree.mk [(str "b.rs", str "e", 3)] [])]) =
      count_total_lines (Tree.mk [(str "b.rs", str "e", 3)]
        [(str "y", Tree.mk [(str "a.rs", str "d", 2)] [])]) := by
  have hp : (allFiles (Tree.mk [(str "a.rs", str "d", 2)]
      [(str "x", Tree.mk [(str "b.rs", str "e", 3)] [])])).Perm
      (allFiles (Tree.mk [(str "b.rs", str "e", 3)]
        [(str "y", Tree.mk [(str "a.rs", str "d", 2)] [])])) := by
    rw [allFiles_eval, allFiles_eval]
    decide
  exact ⟨hp, ((c1_overview_totals _).2.2 _ hp).1, ((c1_overview_totals _).2.2 _ hp).2⟩

/-- The specification's reading of one countable line: stripped of whitespace
it is non-empty and starts with neither `//` nor `///`. -/
def specExecutable (l : Str) : Bool :=
  !(pyStrip l).isEmpty && !(isPre (str "//") (pyStrip l)) && !(isPre (str "///") (pyStrip l))

theorem lineCountLoop_filter : ∀ (lines : List Str) (acc : Nat),
    lineCountLoop acc lines = acc + (lines.filter specExecutable).length := by
  intro lines
  induction lines with
  | nil => intro acc; rfl
  | cons line rest ih =>
    intro acc
    simp only [lineCountLoop]
    by_cases h : pyStrip line ≠ [] ∧
        ¬(isPre (str "///") (pyStrip line) = true ∨ isPre (str "//") (pyStrip line) = true)
    · rw [if_pos h, ih, List.filter_cons_of_pos (by
        obtain ⟨h1, h2⟩ := h
        rw [not_or] at h2
        simp only [specExecutable, Bool.and_eq_true, Bool.not_eq_true']
        refine ⟨⟨?_, by simpa using h2.2⟩, by simpa using h2.1⟩
        simpa [List.isEmpty_iff] using h1)]
      simp only [List.length_cons]
      omega
    · rw [if_neg h, ih, List.filter_cons_of_neg (by
        rw [not_and_or, not_ne_iff, not_not] at h
        simp only [Bool.not_eq_true, specExecutable, Bool.and_eq_false_iff, Bool.not_eq_false]
        rcases h with h | h
        · left; left; simp [h, List.isEmpty_iff]
        · rcases h with h | h
          · right; simp [h]
          · left; right; simp [h])]

/-- C4: the line counter returns exactly the number of lines that, stripped of
leading and trailing whitespace, are non-empty and start with neither the
`//` marker nor its `///` doc variant; a file of only blank or comment lines
yields the ordinary value 0. -/
theorem c4_line_counter (lines : List Str) :
    line_count (some lines) = (lines.filter specExecutable).length ∧
    ((∀ l ∈ lines, pyStrip l = [] ∨ isPre (str "//") (pyStrip l) = true) →
      line_count (some lines) = 0) := by
  have h1 : line_count (some lines) = (lines.filter specExecutable).length := by
    show lineCountLoop 0 lines = _
    rw [lineCountLoop_filter]
    omega
  refine ⟨h1, ?_⟩
  intro hall
  rw [h1]
  rw [List.length_eq_zero, List.filter_eq_nil_iff]
  intro l hl
  rcases hall l hl with h | h
  · simp [specExecutable, h, List.isEmpty_iff]
  · simp [specExecutable, h]

/-- Witness for C4 at a file holding only blank and comment lines. -/
theorem c4_line_counter_witness :
    (∀ l ∈ [str "  ", str "// a", str "/// b", str ""],
      pyStrip l = [] ∨ isPre (str "//") (pyStrip l) = true) ∧
    line_count (some [str "  ", str "// a", str "/// b", str ""]) = 0 := by
  have hall : ∀ l ∈ [str "  ", str "// a", str "/// b", str ""],
      pyStrip l = [] ∨ isPre (str "//") (pyStrip l) = true := by decide
  exact ⟨hall, (c4_line_counter _).2 hall⟩

end SourceMap

namespace SourceMap

theorem mem_allNames_iff (t : Tree) (n : Str) :
    n ∈ allNames t ↔ n ∈ t.files.map (fun f => f.1) ∨ n ∈ allNamesDirs t.dirs := by
  conv_lhs => rw [← Tree.eta t]
  rw [allNames_mk]
  exact List.mem_append

theorem procEntF_names_not_excluded :
    ∀ (fuel : Nat) (pre : Str) (l : List FSEntry) (n : Str),
      n ∈ allNames (procEntF fuel pre l) → excludedName n = false := by
  intro fuel
  induction fuel with
  | zero =>
    intro pre l n h
    simp [procEntF, allNames_mk, allNamesDirs_nil] at h
  | succ fuel ih =>
    intro pre l n h
    match l with
    | [] => simp [procEntF, allNames_mk, allNamesDirs_nil] at h
    | .file m c :: rest =>
      simp only [procEntF] at h
      by_cases hex : excludedName m
      · rw [if_pos hex] at h
        exact ih pre rest n h
      · rw [if_neg hex] at h
        by_cases hq : (is_rust_file m || m == str "README.md") = true
        · rw [if_pos hq] at h
          rw [allNames_mk] at h
          simp only [List.map_cons, List.cons_append, List.mem_cons] at h
          rcases h with rfl | h
          · simpa using hex
          · exact ih pre rest n ((mem_allNames_iff _ n).mpr (List.mem_append.mp h))
        · rw [if_neg hq] at h
          exact ih pre rest n h
    | .dir m sub :: rest =>
      simp only [procEntF] at h
      by_cases hex : excludedName m
      · rw [if_pos hex] at h
        exact ih pre rest n h
      · rw [if_neg hex] at h
        rw [allNames_mk, allNamesDirs_cons] at h
        simp only [List.mem_append, List.mem_cons] at h
        rcases h with h | h
        · exact ih pre rest n ((mem_allNames_iff _ n).mpr (Or.inl h))
        · rcases h with rfl | h
          · simpa using hex
          · rcases h with h | h
            · cases sub with
              | none => simp [allNames_mk, allNamesDirs_nil] at h
              | some l' => exact ih (relJoin pre m) (sortEntries l') n h
            · exact ih pre rest n ((mem_allNames_iff _ n).mpr (Or.inr h))

/-- An entry with an excluded name never survives the skip test. -/
theorem keepEntry_of_excluded (e : FSEntry) (h : excludedName e.name = true) :
    keepEntry e = false := by
  cases e with
  | file n c => simp only [FSEntry.name] at h; simp [keepEntry, h]
  | dir n sub => simp only [FSEntry.name] at h; simp [keepEntry, h]

/-- C2: a dot-named entry or one named `target`, `node_modules` or
`__pycache__` never contributes a name anywhere in the built tree (and hence
to the visual tree or the Modules section, which read only the tree), and
dropping such an entry — with its entire subtree — from a listing with
distinct names leaves the built tree unchanged. -/
theorem c2_exclusion_subtree_wide (pre : Str) (l : List FSEntry) :
    (∀ n : Str, n ∈ allNames (generate_tree pre (some l)) → excludedName n = false) ∧
    (∀ (l₁ l₂ : List FSEntry) (e : FSEntry), l = l₁ ++ e :: l₂ →
      excludedName e.name = true → (l.map FSEntry.name).Nodup →
      generate_tree pre (some l) = generate_tree pre (some (l₁ ++ l₂))) := by
  constructor
  · intro n h
    rw [generate_tree_eval] at h
    exact procEntF_names_not_excluded _ pre (sortEntries l) n h
  · intro l₁ l₂ e hsplit hex hnd
    subst hsplit
    exact generate_tree_remove pre l₁ l₂ e (keepEntry_of_excluded e hex) hnd

/-- Witness for C2: a hidden directory with a Rust file inside is dropped
bodily from a listing, and names in the resulting tree are never excluded. -/
theorem c2_exclusion_subtree_wide_witness :
    (str "cli" ∈ allNames (generate_tree []
      (some [FSEntry.dir (str "cli") (some []),
             FSEntry.dir (str ".git") (some [FSEntry.file (str "a.rs") none])]))) ∧
    excludedName (str "cli") = false ∧
    excludedName (FSEntry.dir (str ".git") (some [FSEntry.file (str "a.rs") none])).name = true ∧
    generate_tree [] (some [FSEntry.dir (str "cli") (some []),
        FSEntry.dir (str ".git") (some [FSEntry.file (str "a.rs") none])]) =
      generate_tree [] (some [FSEntry.dir (str "cli") (some [])]) := by
  have hmem : str "cli" ∈ allNames (generate_tree []
      (some [FSEntry.dir (str "cli") (some []),
             FSEntry.dir (str ".git") (some [FSEntry.file (str "a.rs") none])])) := by
    rw [generate_tree_eval, allNames_eval]
    decide
  refine ⟨hmem, (c2_exclusion_subtree_wide [] _).1 _ hmem, by decide, ?_⟩
  have h := (c2_exclusion_subtree_wide []
      [FSEntry.dir (str "cli") (some []),
       FSEntry.dir (str ".git") (some [FSEntry.file (str "a.rs") none])]).2
    [FSEntry.dir (str "cli") (some [])] [] _ rfl (by decide) (by decide)
  simpa using h

end SourceMap

namespace SourceMap

theorem mem_processEntries_files (pre : Str) :
    ∀ (l : List FSEntry) (x : Str × Str × Nat),
      x ∈ (processEntries pre l).files ↔
        ∃ n content, FSEntry.file n content ∈ l ∧ excludedName n = false ∧
          (is_rust_file n || n == str "README.md") = true ∧
          x = (n, describe (relJoin pre n), line_count content) := by
  intro l
  induction l with
  | nil =>
    intro x
    rw [processEntries_nil]
    simp
  | cons e rest ih =>
    intro x
    cases e with
    | file m c =>
      rw [processEntries_file]
      by_cases hex : excludedName m
      · simp only [if_pos hex, ih]
        constructor
        · rintro ⟨n, content, hmem, hx, hq, rfl⟩
          exact ⟨n, content, List.mem_cons_of_mem _ hmem, hx, hq, rfl⟩
        · rintro ⟨n, content, hmem, hx, hq, rfl⟩
          rcases List.mem_cons.mp hmem with heq | hmem'
          · cases heq
            exact absurd hex (by simp [hx])
          · exact ⟨n, content, hmem', hx, hq, rfl⟩
      · by_cases hq : (is_rust_file m || m == str "README.md") = true
        · simp only [if_neg hex, if_pos hq, Tree.files_mk, List.mem_cons, ih]
          constructor
          · rintro (rfl | ⟨n, content, hmem, hx', hq', rfl⟩)
            · exact ⟨m, c, Or.inl rfl, by simpa using hex, hq, rfl⟩
            · exact ⟨n, content, Or.inr hmem, hx', hq', rfl⟩
          · rintro ⟨n, content, hmem, hx', hq', rfl⟩
            rcases hmem with heq | hmem'
            · cases heq
              exact Or.inl rfl
            · exact Or.inr ⟨n, content, hmem', hx', hq', rfl⟩
        · simp only [if_neg hex, if_neg hq, ih]
          constructor
          · rintro ⟨n, content, hmem, hx', hq', rfl⟩
            exact ⟨n, content, List.mem_cons_of_mem _ hmem, hx', hq', rfl⟩
          · rintro ⟨n, content, hmem, hx', hq', rfl⟩
            rcases List.mem_cons.mp hmem with heq | hmem'
            · cases heq
              exact absurd hq' hq
            · exact ⟨n, content, hmem', hx', hq', rfl⟩
    | dir m sub =>
      rw [processEntries_dir]
      by_cases hex : excludedName m
      · simp only [if_pos hex, ih]
        constructor
        · rintro ⟨n, content, hmem, hx', hq', rfl⟩
          exact ⟨n, content, List.mem_cons_of_mem _ hmem, hx', hq', rfl⟩
        · rintro ⟨n, content, hmem, hx', hq', rfl⟩
          rcases List.mem_cons.mp hmem with heq | hmem'
          · cases heq
          · exact ⟨n, content, hmem', hx', hq', rfl⟩
      · simp only [if_neg hex, Tree.files_mk, ih]
        constructor
        · rintro ⟨n, content, hmem, hx', hq', rfl⟩
          exact ⟨n, content, List.mem_cons_of_mem _ hmem, hx', hq', rfl⟩
        · rintro ⟨n, content, hmem, hx', hq', rfl⟩
          rcases List.mem_cons.mp hmem with heq | hmem'
          · cases heq
          · exact ⟨n, content, hmem', hx', hq', rfl⟩

/-- C3: a file record appears in the built tree exactly when the listing holds
a file of that name that survives the skip test and has suffix `.rs` or is
named `README.md`; removing any file failing the inclusion rule (from a
listing with distinct names) leaves the tree — hence the document and both
totals — unchanged. -/
theorem c3_inclusion_rule (pre : Str) (l : List FSEntry) :
    (∀ x : Str × Str × Nat, x ∈ (generate_tree pre (some l)).files ↔
      ∃ n content, FSEntry.file n content ∈ l ∧ excludedName n = false ∧
        (is_rust_file n || n == str "README.md") = true ∧
        x = (n, describe (relJoin pre n), line_count content)) ∧
    (∀ (l₁ l₂ : List FSEntry) (n : Str) (content : Option (List Str)),
      l = l₁ ++ FSEntry.file n content :: l₂ →
      (is_rust_file n || n == str "README.md") = false →
      (l.map FSEntry.name).Nodup →
      generate_tree pre (some l) = generate_tree pre (some (l₁ ++ l₂))) := by
  constructor
  · intro x
    rw [generate_tree_some, mem_processEntries_files]
    constructor
    · rintro ⟨n, content, hmem, hx, hq, rfl⟩
      exact ⟨n, content, (List.mem_insertionSort entryLe).mp hmem, hx, hq, rfl⟩
    · rintro ⟨n, content, hmem, hx, hq, rfl⟩
      exact ⟨n, content, (List.mem_insertionSort entryLe).mpr hmem, hx, hq, rfl⟩
  · intro l₁ l₂ n content hsplit hq hnd
    subst hsplit
    exact generate_tree_remove pre l₁ l₂ _ (by simp [keepEntry, hq]) hnd

/-- Witness for C3: `a.rs` is in the tree, `notes.txt` is not, and removing
`notes.txt` changes nothing. -/
theorem c3_inclusion_rule_witness :
    ((str "a.rs", describe (str "a.rs"), 1) ∈
      (generate_tree [] (some [FSEntry.file (str "a.rs") (some [str "x"]),
        FSEntry.file (str "notes.txt") (some [str "y"])])).files) ∧
    (is_rust_file (str "notes.txt") || str "notes.txt" == str "README.md") = false ∧
    generate_tree [] (some [FSEntry.file (str "a.rs") (some [str "x"]),
        FSEntry.file (str "notes.txt") (some [str "y"])]) =
      generate_tree [] (some [FSEntry.file (str "a.rs") (some [str "x"])]) := by
  refine ⟨?_, by decide, ?_⟩
  · rw [generate_tree_eval]
    decide
  · have h := (c3_inclusion_rule []
      [FSEntry.file (str "a.rs") (some [str "x"]),
       FSEntry.file (str "notes.txt") (some [str "y"])]).2
      [FSEntry.file (str "a.rs") (some [str "x"])] [] (str "notes.txt") (some [str "y"])
      rfl (by decide) (by decide)
    simpa using h

end SourceMap

namespace SourceMap

theorem generate_tree_some_nil (pre : Str) : generate_tree pre (some []) = Tree.mk [] [] := by
  rw [generate_tree_some]
  exact processEntries_nil pre

/-- C5: an unreadable file counts as 0 lines, an unlistable directory becomes
an empty subtree, and — in a listing with distinct names — the run continues
exactly as if the unlistable directory had been an empty one. -/
theorem c5_local_error_defaults (pre : Str) :
    line_count none = 0 ∧
    generate_tree pre none = Tree.mk [] [] ∧
    (∀ (l₁ l₂ : List FSEntry) (n : Str),
      (((l₁ ++ FSEntry.dir n none :: l₂).map FSEntry.name).Nodup) →
      generate_tree pre (some (l₁ ++ FSEntry.dir n none :: l₂)) =
        generate_tree pre (some (l₁ ++ FSEntry.dir n (some []) :: l₂))) := by
  refine ⟨rfl, generate_tree_none pre, ?_⟩
  intro l₁ l₂ n hnd
  have hLmem : FSEntry.dir n none ∈ l₁ ++ FSEntry.dir n none :: l₂ := by simp
  have hdisj : n ∉ l₁.map FSEntry.name := by
    intro hmemA
    have h := hnd
    rw [List.map_append, List.map_cons] at h
    have hd := (List.nodup_append.mp h).2.2
    exact hd hmemA (by simp [FSEntry.name])
  let f : FSEntry → FSEntry := fun e => match e with
    | .dir m s => if m = n then FSEntry.dir m (some []) else .dir m s
    | .file m c => .file m c
  have hf : ∀ e, (f e).name = e.name := by
    intro e
    cases e with
    | file m c => rfl
    | dir m s =>
      by_cases hm : m = n
      · simp [f, hm, FSEntry.name]
      · simp [f, hm, FSEntry.name]
  have hl₁ : l₁.map f = l₁ := by
    have hc : ∀ e ∈ l₁, f e = id e := by
      intro e he
      cases e with
      | file m c => rfl
      | dir m s =>
        have hm : m ≠ n := by
          intro hmn
          exact hdisj (hmn ▸ List.mem_map_of_mem FSEntry.name he)
        simp [f, hm]
    rw [List.map_congr_left hc, List.map_id]
  have hl₂ : l₂.map f = l₂ := by
    have hnB : n ∉ l₂.map FSEntry.name := by
      have h := hnd
      rw [List.map_append, List.map_cons] at h
      have := (List.nodup_append.mp h).2.1
      simp only [FSEntry.name, List.nodup_cons] at this
      exact this.1
    have hc : ∀ e ∈ l₂, f e = id e := by
      intro e he
      cases e with
      | file m c => rfl
      | dir m s =>
        have hm : m ≠ n := by
          intro hmn
          exact hnB (hmn ▸ List.mem_map_of_mem FSEntry.name he)
        simp [f, hm]
    rw [List.map_congr_left hc, List.map_id]
  have hmap : (l₁ ++ FSEntry.dir n none :: l₂).map f = l₁ ++ FSEntry.dir n (some []) :: l₂ := by
    rw [List.map_append, List.map_cons, hl₁, hl₂]
    simp [f]
  have hsingle : ∀ e ∈ sortEntries (l₁ ++ FSEntry.dir n none :: l₂),
      processEntries pre [f e] = processEntries pre [e] := by
    intro e he
    have heL : e ∈ l₁ ++ FSEntry.dir n none :: l₂ := (List.mem_insertionSort entryLe).mp he
    cases e with
    | file m c => rfl
    | dir m s =>
      by_cases hm : m = n
      · subst hm
        have heq : FSEntry.dir m s = FSEntry.dir m none :=
          mem_unique_of_nodup_keys FSEntry.name _ hnd _ _ heL hLmem rfl
        cases heq
        have hfe : f (FSEntry.dir m none) = FSEntry.dir m (some []) := by simp [f]
        rw [hfe, processEntries_dir, processEntries_dir, processEntries_nil,
          generate_tree_some_nil, generate_tree_none]
      · have hfe : f (FSEntry.dir m s) = FSEntry.dir m s := by simp [f, hm]
        rw [hfe]
  conv_rhs => rw [← hmap]
  rw [generate_tree_some, generate_tree_some, sortEntries_map f hf _ hnd]
  exact (processEntries_map pre f _ hsingle).symm

/-- Witness for C5: an unreadable subdirectory next to a Rust file, with the
traversal continuing unchanged. -/
theorem c5_local_error_defaults_witness :
    ((([FSEntry.file (str "a.rs") (some [str "x"])] ++
        FSEntry.dir (str "cli") none :: []).map FSEntry.name).Nodup) ∧
    generate_tree [] (some ([FSEntry.file (str "a.rs") (some [str "x"])] ++
        FSEntry.dir (str "cli") none :: [])) =
      generate_tree [] (some ([FSEntry.file (str "a.rs") (some [str "x"])] ++
        FSEntry.dir (str "cli") (some []) :: [])) := by
  refine ⟨by decide, ?_⟩
  exact (c5_local_error_defaults []).2.2 [FSEntry.file (str "a.rs") (some [str "x"])] []
    (str "cli") (by decide)

end SourceMap

namespace SourceMap

/-- Every level of a tree lists file names and directory names in
non-decreasing lexicographic order, recursively. -/
inductive TreeOrdered : Tree → Prop where
  | mk : ∀ (files : List (Str × Str × Nat)) (dirs : List (Str × Tree)),
      (files.map (fun f => f.1)).Pairwise (fun a b => strLe a b = true) →
      (dirs.map (fun p => p.1)).Pairwise (fun a b => strLe a b = true) →
      (∀ p ∈ dirs, TreeOrdered p.2) →
      TreeOrdered (Tree.mk files dirs)

theorem TreeOrdered.files_sorted {t : Tree} (h : TreeOrdered t) :
    (t.files.map (fun f => f.1)).Pairwise (fun a b => strLe a b = true) := by
  cases h with
  | mk files dirs h1 h2 h3 => exact h1

theorem TreeOrdered.dirs_sorted {t : Tree} (h : TreeOrdered t) :
    (t.dirs.map (fun p => p.1)).Pairwise (fun a b => strLe a b = true) := by
  cases h with
  | mk files dirs h1 h2 h3 => exact h2

theorem TreeOrdered.dirs_ordered {t : Tree} (h : TreeOrdered t) :
    ∀ p ∈ t.dirs, TreeOrdered p.2 := by
  cases h with
  | mk files dirs h1 h2 h3 => exact h3

theorem TreeOrdered.empty : TreeOrdered (Tree.mk [] []) :=
  TreeOrdered.mk [] [] (by simp) (by simp) (by simp)

theorem procEntF_files_names_sublist : ∀ (fuel : Nat) (pre : Str) (l : List FSEntry),
    ((procEntF fuel pre l).files.map (fun f => f.1)).Sublist (l.map FSEntry.name) := by
  intro fuel
  induction fuel with
  | zero => intro pre l; simp [procEntF]
  | succ fuel ih =>
    intro pre l
    match l with
    | [] => simp [procEntF]
    | .file m c :: rest =>
      simp only [procEntF, List.map_cons]
      by_cases hex : excludedName m
      · rw [if_pos hex]
        exact (ih pre rest).cons _
      · rw [if_neg hex]
        by_cases hq : (is_rust_file m || m == str "README.md") = true
        · rw [if_pos hq]
          simp only [Tree.files_mk, List.map_cons, FSEntry.name]
          exact (ih pre rest).cons₂ _
        · rw [if_neg hq]
          exact (ih pre rest).cons _
    | .dir m sub :: rest =>
      simp only [procEntF, List.map_cons]
      by_cases hex : excludedName m
      · rw [if_pos hex]
        exact (ih pre rest).cons _
      · rw [if_neg hex]
        simp only [Tree.files_mk]
        exact (ih pre rest).cons _

theorem procEntF_dirs_names_sublist : ∀ (fuel : Nat) (pre : Str) (l : List FSEntry),
    ((procEntF fuel pre l).dirs.map (fun p => p.1)).Sublist (l.map FSEntry.name) := by
  intro fuel
  induction fuel with
  | zero => intro pre l; simp [procEntF]
  | succ fuel ih =>
    intro pre l
    match l with
    | [] => simp [procEntF]
    | .file m c :: rest =>
      simp only [procEntF, List.map_cons]
      by_cases hex : excludedName m
      · rw [if_pos hex]
        exact (ih pre rest).cons _
      · rw [if_neg hex]
        by_cases hq : (is_rust_file m || m == str "README.md") = true
        · rw [if_pos hq]
          simp only [Tree.dirs_mk]
          exact (ih pre rest).cons _
        · rw [if_neg hq]
          exact (ih pre rest).cons _
    | .dir m sub :: rest =>
      simp only [procEntF, List.map_cons]
      by_cases hex : excludedName m
      · rw [if_pos hex]
        exact (ih pre rest).cons _
      · rw [if_neg hex]
        simp only [Tree.dirs_mk, List.map_cons, FSEntry.name]
        exact (ih pre rest).cons₂ _

theorem procEntF_ordered : ∀ (fuel : Nat) (pre : Str) (l : List FSEntry),
    l.Pairwise entryLe → TreeOrdered (procEntF fuel pre l) := by
  intro fuel
  induction fuel with
  | zero => intro pre l _; exact TreeOrdered.empty
  | succ fuel ih =>
    intro pre l hs
    match l with
    | [] => exact TreeOrdered.empty
    | .file m c :: rest =>
      obtain ⟨hhead, htail⟩ := List.pairwise_cons.mp hs
      have iht := ih pre rest htail
      simp only [procEntF]
      by_cases hex : excludedName m
      · rw [if_pos hex]; exact iht
      · rw [if_neg hex]
        by_cases hq : (is_rust_file m || m == str "README.md") = true
        · rw [if_pos hq]
          refine TreeOrdered.mk _ _ ?_ iht.dirs_sorted iht.dirs_ordered
          rw [List.map_cons, List.pairwise_cons]
          refine ⟨?_, iht.files_sorted⟩
          intro x hx
          have hx' : x ∈ rest.map FSEntry.name :=
            (procEntF_files_names_sublist fuel pre rest).subset hx
          obtain ⟨e, he, rfl⟩ := List.mem_map.mp hx'
          exact hhead e he
        · rw [if_neg hq]; exact iht
    | .dir m sub :: rest =>
      obtain ⟨hhead, htail⟩ := List.pairwise_cons.mp hs
      have iht := ih pre rest htail
      simp only [procEntF]
      by_cases hex : excludedName m
      · rw [if_pos hex]; exact iht
      · rw [if_neg hex]
        refine TreeOrdered.mk _ _ iht.files_sorted ?_ ?_
        · rw [List.map_cons, List.pairwise_cons]
          refine ⟨?_, iht.dirs_sorted⟩
          intro x hx
          have hx' : x ∈ rest.map FSEntry.name :=
            (procEntF_dirs_names_sublist fuel pre rest).subset hx
          obtain ⟨e, he, rfl⟩ := List.mem_map.mp hx'
          exact hhead e he
        · intro p hp
          rcases List.mem_cons.mp hp with rfl | hp'
          · cases sub with
            | none => exact TreeOrdered.empty
            | some l' =>
              show TreeOrdered (procEntF fuel (relJoin pre m) (sortEntries l'))
              exact ih (relJoin pre m) (sortEntries l') (List.sorted_insertionSort entryLe l')
          · exact iht.dirs_ordered p hp'

/-- C6: the built tree is alphabetically ordered at every level, the
directory lists used by the renderers are sorted by name, and both the visual
tree and the Modules section emit the sorted directories before the file
list at every level. -/
theorem c6_directories_before_files_alphabetical :
    (∀ (pre : Str) (o : Option (List FSEntry)), TreeOrdered (generate_tree pre o)) ∧
    (∀ ds : List (Str × Tree),
      ((sortDirs ds).map (fun p => p.1)).Pairwise (fun a b => strLe a b = true)) ∧
    (∀ (t : Tree) (pre : Str),
      build_tree_visual t pre = render_items pre (sortDirs t.dirs) t.files) ∧
    (∀ (base : Str) (t : Tree) (level : Nat),
      write_directory base t level = writeDirLoop base level (sortDirs t.dirs)) := by
  refine ⟨?_, ?_, build_tree_visual_def, write_directory_def⟩
  · intro pre o
    cases o with
    | none => rw [generate_tree_none]; exact TreeOrdered.empty
    | some l =>
      rw [generate_tree_eval]
      exact procEntF_ordered _ pre (sortEntries l) (List.sorted_insertionSort entryLe l)
  · intro ds
    rw [List.pairwise_map]
    exact List.sorted_insertionSort dirLe ds

end SourceMap

namespace SourceMap

/-- C8: the Entry Point bullet — name, line count and description of
`main.rs` — is emitted exactly when an entry named `main.rs` exists at the
scan root, and it then appears in the generated document. -/
theorem c8_entry_point (root : List FSEntry) (now : Str) :
    ((find_main root).isSome = true ↔ entry_point_lines root ≠ []) ∧
    (∀ e, find_main root = some e →
      entry_point_lines root = [entry_bullet e] ∧
      entry_bullet e ∈ generate_source_map root now) := by
  constructor
  · cases h : find_main root with
    | none => simp [entry_point_lines, h]
    | some e => simp [entry_point_lines, h]
  · intro e h
    refine ⟨by simp [entry_point_lines, h], ?_⟩
    simp [generate_source_map, entry_point_lines, h]

/-- Witness for C8 at a root that holds `main.rs`. -/
theorem c8_entry_point_witness :
    entry_point_lines [FSEntry.file (str "main.rs") (some [str "fn"])] =
      [entry_bullet (FSEntry.file (str "main.rs") (some [str "fn"]))] ∧
    entry_bullet (FSEntry.file (str "main.rs") (some [str "fn"])) ∈
      generate_source_map [FSEntry.file (str "main.rs") (some [str "fn"])] (str "t") :=
  (c8_entry_point [FSEntry.file (str "main.rs") (some [str "fn"])] (str "t")).2 _ rfl

/-- C9 counterexample: a directory with no files and no subdirectories still
occupies a line of the visual tree, so empty containers are not omitted. -/
theorem c9_counterexample :
    build_tree_visual (Tree.mk [] [(str "util", Tree.mk [] [])]) [] = [str "╰── util/"] ∧
    build_tree_visual (Tree.mk [] [(str "util", Tree.mk [] [])]) [] ≠ [] := by
  constructor
  · rw [build_tree_visual_eval]
    decide
  · rw [build_tree_visual_eval]
    decide

/-- C9 (amended): a directory node with no qualifying files gets the italic
"no files" placeholder instead of a file list in the Modules section, while
the visual tree prints only the directory's own name line and emits no lines
for its empty contents. -/
theorem c9_empty_directory_rendering (base pre : Str) (level : Nat)
    (files : List (Str × Str × Nat)) (n : Str) (ds : List (Str × Tree)) :
    (write_directory base (Tree.mk files [(n, Tree.mk [] ds)]) level =
      [[], dir_heading base n level, [], str "*No files in this directory.*"]
        ++ (if ds.isEmpty then []
            else write_directory (relJoin base n) (Tree.mk [] ds) (level + 1))) ∧
    (ds = [] →
      build_tree_visual (Tree.mk files [(n, Tree.mk [] ds)]) pre =
        [pre ++ (if files.isEmpty then str "╰── " else str "├── ") ++ n ++ ['/']]
          ++ render_items pre [] files) := by
  constructor
  · rw [write_directory_def]
    simp only [Tree.dirs_mk]
    have hsort : sortDirs [(n, Tree.mk [] ds)] = [(n, Tree.mk [] ds)] := by
      simp [sortDirs]
    rw [hsort, writeDirLoop_cons, writeDirLoop_nil]
    simp
  · intro hds
    subst hds
    rw [build_tree_visual_def]
    simp only [Tree.dirs_mk, Tree.files_mk]
    have hsort : sortDirs [(n, Tree.mk [] ([] : List (Str × Tree)))] =
        [(n, Tree.mk [] [])] := by
      simp [sortDirs]
    have hsub : sortDirs ([] : List (Str × Tree)) = [] := by
      simp [sortDirs]
    rw [hsort, render_items_dir]
    simp only [build_tree_visual_def, Tree.dirs_mk, Tree.files_mk, hsub, render_items_nil]
    simp

/-- Witness for C9 (amended) at the scenario of the specification: an empty
`util/` below a root that also holds `main.rs`. -/
theorem c9_empty_directory_rendering_witness :
    (([] : List (Str × Tree)) = []) ∧
    write_directory [] (Tree.mk [(str "main.rs", str "d", 3)]
        [(str "util", Tree.mk [] [])]) 0 =
      [[], dir_heading [] (str "util") 0, [], str "*No files in this directory.*"] ∧
    build_tree_visual (Tree.mk [(str "main.rs", str "d", 3)]
        [(str "util", Tree.mk [] [])]) [] =
      [[] ++ str "├── " ++ str "util" ++ ['/']]
        ++ render_items [] [] [(str "main.rs", str "d", 3)] := by
  have h := c9_empty_directory_rendering [] [] 0 [(str "main.rs", str "d", 3)] (str "util") []
  refine ⟨rfl, ?_, ?_⟩
  · have h1 := h.1
    simpa using h1
  · have h2 := h.2 rfl
    simpa using h2

theorem mem_render_items_files (pre : Str) :
    ∀ (ds : List (Str × Tree)) (files : List (Str × Str × Nat)) (f : Str × Str × Nat),
      f ∈ files → ∃ conn, (conn = str "├── " ∨ conn = str "╰── ") ∧
        (pre ++ conn ++ f.1) ∈ render_items pre ds files := by
  intro ds
  induction ds with
  | nil =>
    intro files
    induction files with
    | nil => intro f hf; cases hf
    | cons g gs ihf =>
      intro f hf
      rcases List.mem_cons.mp hf with rfl | hf'
      · by_cases hgs : gs.isEmpty
        · refine ⟨str "╰── ", Or.inr rfl, ?_⟩
          simp only [render_items_file, hgs, if_pos]
          exact List.mem_cons_self _ _
        · refine ⟨str "├── ", Or.inl rfl, ?_⟩
          simp only [render_items_file, hgs, if_neg, Bool.false_eq_true, not_false_iff]
          exact List.mem_cons_self _ _
      · obtain ⟨conn, hc, hm⟩ := ihf f hf'
        refine ⟨conn, hc, ?_⟩
        simp only [render_items_file]
        exact List.mem_cons_of_mem _ hm
  | cons d ds' ihd =>
    intro files f hf
    obtain ⟨conn, hc, hm⟩ := ihd files f hf
    obtain ⟨dn, dt⟩ := d
    refine ⟨conn, hc, ?_⟩
    rw [render_items_dir]
    exact List.mem_cons_of_mem _ (List.mem_append_right _ hm)

/-- C10: the Modules writer never reads the root's own file list, while those
files are reachable from the root (and so counted in the totals) and each of
them is drawn as a line of the visual tree. -/
theorem c10_root_files (files : List (Str × Str × Nat)) (dirs : List (Str × Tree))
    (base pre : Str) (level : Nat) :
    write_directory base (Tree.mk files dirs) level =
      write_directory base (Tree.mk [] dirs) level ∧
    (∀ f ∈ files, f ∈ allFiles (Tree.mk files dirs)) ∧
    (∀ f ∈ files, ∃ conn, (conn = str "├── " ∨ conn = str "╰── ") ∧
      (pre ++ conn ++ f.1) ∈ build_tree_visual (Tree.mk files dirs) pre) := by
  refine ⟨?_, ?_, ?_⟩
  · rw [write_directory_def, write_directory_def]
    simp only [Tree.dirs_mk]
  · intro f hf
    rw [allFiles_mk]
    exact List.mem_append_left _ hf
  · intro f hf
    rw [build_tree_visual_def]
    exact mem_render_items_files pre _ files f hf

/-- Witness for C10: the root files `main.rs` and `README.md` of a small tree. -/
theorem c10_root_files_witness :
    ((str "main.rs", str "d", 3) ∈ [(str "main.rs", str "d", 3), (str "README.md", str "e", 1)]) ∧
    write_directory [] (Tree.mk [(str "main.rs", str "d", 3), (str "README.md", str "e", 1)]
        [(str "cli", Tree.mk [] [])]) 0 =
      write_directory [] (Tree.mk [] [(str "cli", Tree.mk [] [])]) 0 ∧
    (str "main.rs", str "d", 3) ∈ allFiles (Tree.mk
      [(str "main.rs", str "d", 3), (str "README.md", str "e", 1)]
      [(str "cli", Tree.mk [] [])]) ∧
    (∃ conn, (conn = str "├── " ∨ conn = str "╰── ") ∧
      ([] ++ conn ++ (str "main.rs", str "d", 3).1) ∈ build_tree_visual (Tree.mk
        [(str "main.rs", str "d", 3), (str "README.md", str "e", 1)]
        [(str "cli", Tree.mk [] [])]) []) := by
  have hmem : (str "main.rs", str "d", 3) ∈
      [(str "main.rs", str "d", 3), (str "README.md", str "e", 1)] :=
    List.mem_cons_self _ _
  have h := c10_root_files [(str "main.rs", str "d", 3), (str "README.md", str "e", 1)]
    [(str "cli", Tree.mk [] [])] [] [] 0
  exact ⟨hmem, h.1, h.2.1 _ hmem, h.2.2 _ hmem⟩

end SourceMap

namespace SourceMap

theorem replaceReadme_name (c' : List Str) (e : FSEntry) :
    (replaceReadme c' e).name = e.name := by
  cases e with
  | file m x =>
    by_cases hm : m = str "README.md"
    · simp [replaceReadme, hm, FSEntry.name]
    · simp [replaceReadme, hm, FSEntry.name]
  | dir m s => rfl

/-- Overwriting `README.md` with content of the same executable line count
leaves the built tree unchanged. -/
theorem generate_tree_set_readme (pre : Str) (root : List FSEntry) (c : Option (List Str))
    (c' : List Str)
    (hmem : FSEntry.file (str "README.md") c ∈ root)
    (hnd : (root.map FSEntry.name).Nodup)
    (hlc : line_count (some c') = line_count c) :
    generate_tree pre (some (root.map (replaceReadme c'))) = generate_tree pre (some root) := by
  rw [generate_tree_some, generate_tree_some, sortEntries_map _ (replaceReadme_name c') _ hnd]
  apply processEntries_map
  intro e he
  have heL : e ∈ root := (List.mem_insertionSort entryLe).mp he
  cases e with
  | dir m s => rfl
  | file m x =>
    by_cases hm : m = str "README.md"
    · subst hm
      have heq : FSEntry.file (str "README.md") x = FSEntry.file (str "README.md") c :=
        mem_unique_of_nodup_keys FSEntry.name _ hnd _ _ heL hmem rfl
      injection heq with h1 h2
      subst h2
      have hfe : replaceReadme c' (FSEntry.file (str "README.md") x) =
          FSEntry.file (str "README.md") (some c') := by
        simp [replaceReadme]
      rw [hfe, processEntries_file, processEntries_file, processEntries_nil]
      have hex : excludedName (str "README.md") = false := by decide
      have hq : (is_rust_file (str "README.md") || str "README.md" == str "README.md") = true := by
        decide
      simp [hex, hq, hlc]
    · have hfe : replaceReadme c' (FSEntry.file m x) = FSEntry.file m x := by
        simp [replaceReadme, hm]
      rw [hfe]

/-- The footer's generation credit line. -/
def timestamp_line (now : Str) : Str :=
  str "*Generated by [generate_source_map.py](../scripts/generate_source_map.py) on " ++
    now ++ ['*']

/-- Everything in the document before the timestamp line. -/
def document_body (root : List FSEntry) : List Str :=
  let src_tree := generate_tree [] (some root)
  let total_lines := count_total_lines src_tree
  let total_files := count_total_files src_tree
  let tree_visual := joinNl (str "src/" :: build_tree_visual src_tree [])
  [str "# Cerium: Source Map (Auto-Generated)",
   [],
   str "> [!WARNING]",
   str "> Do not edit manually. This file is generated by `scripts/generate_source_map.py`.",
   [],
   str "## Overview",
   [],
   str "- **Total Files**: " ++ natStr total_files,
   str "- **Total Lines**: " ++ fmtComma total_lines,
   str "- **Language**: Rust, Python, Shell",
   [],
   str "## Project Structure",
   [],
   str "```",
   tree_visual,
   str "```"]
  ++ ([[], str "## Entry Point", []] ++ entry_point_lines root)
  ++ ([[], str "## Modules", []] ++ write_directory [] src_tree 0)
  ++ [[], str "---", []]

/-- The timestamp is confined to the document's final line. -/
theorem generate_source_map_split (root : List FSEntry) (now : Str) :
    generate_source_map root now = document_body root ++ [timestamp_line now] := by
  simp [generate_source_map, document_body, timestamp_line, List.append_assoc]

theorem document_body_set_readme (root : List FSEntry) (c : Option (List Str)) (c' : List Str)
    (hmem : FSEntry.file (str "README.md") c ∈ root)
    (hnd : (root.map FSEntry.name).Nodup)
    (hlc : line_count (some c') = line_count c) :
    document_body (root.map (replaceReadme c')) = document_body root := by
  have htree := generate_tree_set_readme [] root c c' hmem hnd hlc
  have hentry : entry_point_lines (root.map (replaceReadme c')) = entry_point_lines root := by
    unfold entry_point_lines find_main
    rw [List.find?_map]
    have hpf : ((fun e => FSEntry.name e == str "main.rs") ∘ replaceReadme c') =
        (fun e => FSEntry.name e == str "main.rs") := by
      funext e
      simp only [Function.comp_apply]
      rw [replaceReadme_name]
    rw [hpf]
    cases hfind : root.find? (fun e => e.name == str "main.rs") with
    | none => rfl
    | some e =>
      have hname : e.name = str "main.rs" := by
        have hb := List.find?_some hfind
        exact eq_of_beq hb
      have hfe : replaceReadme c' e = e := by
        cases e with
        | file m x =>
          simp only [FSEntry.name] at hname
          subst hname
          simp [replaceReadme, show ¬(str "main.rs" = str "README.md") from by decide]
        | dir m s => rfl
      simp [hfe]
  unfold document_body
  rw [htree, hentry]

set_option maxRecDepth 10000 in
/-- C7 counterexample: on an initially empty scan root, the first run creates
`README.md`, so the second run reports different totals and a different tree
even away from the timestamp line. -/
theorem c7_counterexample :
    (generate_source_map (after_run [] (str "t")) (str "t")).dropLast ≠
      (generate_source_map [] (str "t")).dropLast := by
  rw [after_run, file_lines]
  rw [generate_source_map_eval]
  rw [generate_source_map_eval]
  decide

set_option maxRecDepth 10000 in
/-- C7 (amended): two successive runs produce byte-identical documents except
for the timestamp line, provided the scan root already contains the output
file `README.md` (as a file, with the root's names distinct) and its
executable line count equals that of the freshly generated document — the
condition the claim's unrestricted form violates on a fresh root. -/
theorem c7_second_run_identical (root : List FSEntry) (c : Option (List Str)) (now₁ now₂ : Str)
    (hmem : FSEntry.file (str "README.md") c ∈ root)
    (hnd : (root.map FSEntry.name).Nodup)
    (hlc : line_count (some (file_lines (generate_source_map root now₁))) = line_count c) :
    (generate_source_map (after_run root now₁) now₂).dropLast =
      (generate_source_map root now₁).dropLast := by
  have hany : root.any isReadmeFile = true := by
    rw [List.any_eq_true]
    exact ⟨_, hmem, by simp [isReadmeFile]⟩
  have hrun : after_run root now₁ =
      root.map (replaceReadme (file_lines (generate_source_map root now₁))) := by
    rw [after_run, set_readme, if_pos hany]
  rw [hrun]
  rw [generate_source_map_split
    (root.map (replaceReadme (file_lines (generate_source_map root now₁)))) now₂]
  conv_rhs => rw [generate_source_map_split root now₁]
  rw [List.dropLast_concat, List.dropLast_concat]
  exact document_body_set_readme root c _ hmem hnd hlc

set_option maxRecDepth 10000 in
/-- Witness for C7 (amended): a root whose `README.md` already has the
generator's own executable line count (16); the second run then reproduces
the document except for the timestamp. -/
theorem c7_second_run_identical_witness :
    line_count (some (file_lines (generate_source_map
        [FSEntry.file (str "README.md") (some (List.replicate 16 (str "x")))] (str "t")))) =
      line_count (some (List.replicate 16 (str "x"))) ∧
    (generate_source_map (after_run
        [FSEntry.file (str "README.md") (some (List.replicate 16 (str "x")))] (str "t"))
        (str "u")).dropLast =
      (generate_source_map
        [FSEntry.file (str "README.md") (some (List.replicate 16 (str "x")))] (str "t")).dropLast := by
  have hlc : line_count (some (file_lines (generate_source_map
      [FSEntry.file (str "README.md") (some (List.replicate 16 (str "x")))] (str "t")))) =
      line_count (some (List.replicate 16 (str "x"))) := by
    rw [file_lines, generate_source_map_eval]
    decide
  refine ⟨hlc, ?_⟩
  exact c7_second_run_identical _ _ (str "t") (str "u")
    (List.mem_cons_self _ _) (by decide) hlc

end SourceMap
